import Mathlib

/-!
# Verification of `hilbert_curve.py`

A shallow embedding of the Hilbert-curve codec from `src/hilbert_curve.py`,
together with proofs of the specified properties.

Conventions used in the embedding:

* Python integers are modelled as `Int`.  Python's floor division `//` by a
  positive divisor coincides with Lean's `/` on `Int` (Euclidean division),
  and every division in the source is by the literal `2` or `4`.
* Python's bitwise `&` and `^` on arbitrary (possibly negative) integers are
  two's-complement operations; they are modelled by Mathlib's `Int.land` and
  `Int.xor`, which have exactly those semantics.
* The `while` loops of the codec are modelled by fuel-indexed recursion.
  In `hilbert_index_to_point` the loop `s = 1; while s < 2**order: ...; s *= 2`
  executes exactly `max order 0` times; in `point_to_hilbert_index` the loop
  `s = 2**order // 2; while s > 0: ...; s //= 2` also executes exactly
  `max order 0` times (for negative `order`, Python's `2**order` is a float
  smaller than `1`, so neither loop body ever runs).  The fuel is therefore
  `Int.toNat order`.
* Python tuples/lists of rows are modelled by `List`, and the dictionary
  built by `hilbert_curve_to_coordinates` is modelled as the lookup function
  obtained by folding single-key insertion (Python dict assignment) over the
  entries in the comprehension's scan order.
-/

/-- The static order-3 reference table `HILBERT_3` from the source. -/
def HILBERT_3 : List (List Int) :=
  [[ 0,  3,  4,  5, 58, 59, 60, 63],
   [ 1,  2,  7,  6, 57, 56, 61, 62],
   [14, 13,  8,  9, 54, 55, 50, 49],
   [15, 12, 11, 10, 53, 52, 51, 48],
   [16, 17, 30, 31, 32, 33, 46, 47],
   [19, 18, 29, 28, 35, 34, 45, 44],
   [20, 23, 24, 27, 36, 39, 40, 43],
   [21, 22, 25, 26, 37, 38, 41, 42]]

/-- `_hilbert_rotate(n, x, y, rx, ry)` from the source:
if `ry == 0` then (if `rx == 1` reflect both coordinates about the quadrant
centre) and swap `x` and `y`; otherwise leave them unchanged. -/
def hilbert_rotate (n x y rx ry : Int) : Int × Int :=
  if ry = 0 then
    if rx = 1 then (n - 1 - y, n - 1 - x) else (y, x)
  else (x, y)

/-- Loop body/state of `hilbert_index_to_point`, by fuel.  One step performs
`rx = 1 & (t // 2); ry = 1 & (t ^ rx); x, y = _hilbert_rotate(s, x, y, rx, ry);
x += s * rx; y += s * ry; t //= 4; s *= 2`. -/
def i2pAux : Nat → Int → Int → Int → Int → Int × Int
  | 0, x, y, _, _ => (x, y)
  | k + 1, x, y, t, s =>
    let rx : Int := Int.land 1 (t / 2)
    let ry : Int := Int.land 1 (Int.xor t rx)
    let p := hilbert_rotate s x y rx ry
    i2pAux k (p.1 + s * rx) (p.2 + s * ry) (t / 4) (s * 2)

/-- `hilbert_index_to_point(order, index)` from the source: starting from
`x = y = 0`, `t = index`, `s = 1`, run the loop `while s < 2**order`
(which executes `order.toNat` times) and return `(x, y)`. -/
def hilbert_index_to_point (order index : Int) : Int × Int :=
  i2pAux order.toNat 0 0 index 1

/-- Loop body/state of `point_to_hilbert_index`, by fuel.  One step performs
`rx = 1 if (x & s) > 0 else 0; ry = 1 if (y & s) > 0 else 0;
index += s * s * ((3 * rx) ^ ry); x, y = _hilbert_rotate(s, x, y, rx, ry);
s //= 2`. -/
def p2iAux : Nat → Int → Int → Int → Int → Int
  | 0, _, _, _, index => index
  | k + 1, x, y, s, index =>
    let rx : Int := if 0 < Int.land x s then 1 else 0
    let ry : Int := if 0 < Int.land y s then 1 else 0
    let index' := index + s * s * Int.xor (3 * rx) ry
    let p := hilbert_rotate s x y rx ry
    p2iAux k p.1 p.2 (s / 2) index'

/-- `point_to_hilbert_index(x, y, order)` from the source: starting from
`index = 0` and `s = (2**order) // 2`, run the loop `while s > 0`
(which executes `order.toNat` times) and return `index`. -/
def point_to_hilbert_index (x y order : Int) : Int :=
  p2iAux order.toNat x y (2 ^ order.toNat / 2) 0

/-- `generate_hilbert_points(order)`: the tuple
`(hilbert_index_to_point(order, i) for i in range(2**(2*order)))`. -/
def generate_hilbert_points (order : Nat) : List (Int × Int) :=
  (List.range (2 ^ (2 * order))).map fun i : Nat =>
    hilbert_index_to_point (order : Int) (i : Int)

/-- The entries `(val, (x, y))` of `{val: (x, y) for x, row in enumerate(grid)
for y, val in enumerate(row)}` in scan order, rows enumerated from `x`,
row elements from `y`.  Inner enumeration. -/
def rowEntriesFrom (x : Nat) (y : Nat) : List Int → List (Int × Nat × Nat)
  | [] => []
  | v :: vs => (v, x, y) :: rowEntriesFrom x (y + 1) vs

/-- Outer enumeration of the dict comprehension's entries, in scan order. -/
def gridEntriesFrom (x : Nat) : List (List Int) → List (Int × Nat × Nat)
  | [] => []
  | r :: rs => rowEntriesFrom x 0 r ++ gridEntriesFrom (x + 1) rs

/-- A single Python dict assignment `d[k] = v`, as a lookup-function update. -/
def dictInsert (m : Int → Option (Nat × Nat)) (k : Int) (v : Nat × Nat) :
    Int → Option (Nat × Nat) :=
  fun q => if q = k then some v else m q

/-- `hilbert_curve_to_coordinates(grid)`: the dict
`{val: (x, y) for x, row in enumerate(grid) for y, val in enumerate(row)}`,
modelled as the lookup function obtained by folding assignment over the
entries in scan order, starting from the empty dict. -/
def hilbert_curve_to_coordinates (grid : List (List Int)) :
    Int → Option (Nat × Nat) :=
  (gridEntriesFrom 0 grid).foldl (fun m e => dictInsert m e.1 e.2) (fun _ => none)

/-- `hilbert_index_matrix(order)`: the tuple of tuples with
`matrix[x][y] = point_to_hilbert_index(x, y, order)` for
`x, y in range(2**order)`. -/
def hilbert_index_matrix (order : Nat) : List (List Int) :=
  (List.range (2 ^ order)).map fun x : Nat =>
    (List.range (2 ^ order)).map fun y : Nat =>
      point_to_hilbert_index (x : Int) (y : Int) (order : Int)

/-- `point_from_distance(order, index)`: alias for `hilbert_index_to_point`,
with parameters in the source order `(order, index)`. -/
def point_from_distance (order index : Int) : Int × Int :=
  hilbert_index_to_point order index

/-- `distance_from_point(order, x, y)`: alias for `point_to_hilbert_index`,
with parameters in the source order `(order, x, y)`. -/
def distance_from_point (order x y : Int) : Int :=
  point_to_hilbert_index x y order

/-! ## Arithmetic characterisation of the two's-complement bit operations

The loops test single bits of (possibly negative) integers.  We characterise
the three bit-operation patterns used by the source through Euclidean
division and remainder, and derive purely arithmetic variants `i2pAuxE` and
`p2iAuxE` of the two loops that are provably equal to the embedded ones. -/

/-- Parity of an integer through its lowest two's-complement bit. -/
theorem int_emod_two_testBit (x : Int) :
    x % 2 = if x.testBit 0 then 1 else 0 := by
  cases x with
  | ofNat m =>
      have h : Int.testBit (Int.ofNat m) 0 = Nat.testBit m 0 := rfl
      rw [h, Nat.testBit_to_div_mod]
      have h2 : (Int.ofNat m) % 2 = Int.ofNat (m % 2) := rfl
      rw [h2]
      rcases Nat.mod_two_eq_zero_or_one m with h3 | h3 <;> simp [h3]
  | negSucc m =>
      have h : Int.testBit (Int.negSucc m) 0 = !(Nat.testBit m 0) := rfl
      rw [h, Nat.testBit_to_div_mod]
      rw [Int.negSucc_emod m (by norm_num)]
      have h2 : (m : Int) % 2 = Int.ofNat (m % 2) := rfl
      rw [h2]
      rcases Nat.mod_two_eq_zero_or_one m with h3 | h3 <;> simp [h3]

/-- `1 & x` (Python) extracts the lowest bit: it equals `x % 2`. -/
theorem int_land_one (x : Int) : Int.land 1 x = x % 2 := by
  cases x with
  | ofNat m =>
      have h : Int.land 1 (Int.ofNat m) = Int.ofNat (Nat.land 1 m) := rfl
      rw [h]
      have h1 : Nat.land 1 m = m % 2 := by
        have := Nat.one_and_eq_mod_two m
        simpa [HAnd.hAnd, AndOp.and] using this
      rw [h1]; rfl
  | negSucc m =>
      have h : Int.land 1 (Int.negSucc m) = Int.ofNat (Nat.ldiff 1 m) := rfl
      rw [h, Int.negSucc_emod m (by norm_num)]
      have hbit : Nat.ldiff 1 m = if Nat.testBit m 0 then 0 else 1 := by
        apply Nat.eq_of_testBit_eq
        intro i
        rw [Nat.testBit_ldiff]
        cases i with
        | zero =>
            cases h0 : Nat.testBit m 0 <;> simp [Nat.testBit_to_div_mod]
        | succ j =>
            have h1 : Nat.testBit 1 (j + 1) = false := by
              simp [Nat.testBit_to_div_mod, Nat.div_eq_of_lt,
                Nat.one_lt_two_pow_iff]
            cases h0 : Nat.testBit m 0 <;>
              simp [h1, Nat.testBit_to_div_mod, Nat.div_eq_of_lt,
                Nat.one_lt_two_pow_iff]
      rw [hbit, Nat.testBit_to_div_mod]
      have h2 : (m : Int) % 2 = Int.ofNat (m % 2) := rfl
      rw [h2]
      rcases Nat.mod_two_eq_zero_or_one m with h3 | h3 <;> simp [h3]

/-- Decomposition of a remainder by `2 ^ (k + 1)` into the remainder by
`2 ^ k` and the `k`-th bit, on `Nat`. -/
theorem nat_mod_pow_succ (m k : Nat) :
    m % 2 ^ (k + 1) = m % 2 ^ k + 2 ^ k * (m / 2 ^ k % 2) := by
  conv_lhs => rw [pow_succ, Nat.mod_mul]

/-- `x & 2^k` (Python) extracts the `k`-th two's-complement bit, scaled:
it equals `x % 2^(k+1) - x % 2^k`. -/
theorem int_land_two_pow (x : Int) (k : Nat) :
    Int.land x (2 ^ k) = x % 2 ^ (k + 1) - x % 2 ^ k := by
  have hc : ∀ j : Nat, (2 : Int) ^ j = Int.ofNat (2 ^ j) := by
    intro j; simp [Int.ofNat_eq_natCast]
  cases x with
  | ofNat m =>
      have h : Int.land (Int.ofNat m) (Int.ofNat (2 ^ k)) =
          Int.ofNat (Nat.land m (2 ^ k)) := rfl
      have h2 : ∀ j : Nat, (Int.ofNat m) % Int.ofNat (2 ^ j) =
          Int.ofNat (m % 2 ^ j) := fun j => rfl
      have h1 : Nat.land m (2 ^ k) = (Nat.testBit m k).toNat * 2 ^ k := by
        have := Nat.and_two_pow m k
        simpa [HAnd.hAnd, AndOp.and] using this
      rw [hc k, hc (k + 1), h, h2, h2, h1, Nat.testBit_to_div_mod,
        nat_mod_pow_succ m k]
      rcases Nat.mod_two_eq_zero_or_one (m / 2 ^ k) with h3 | h3 <;>
        · rw [h3]
          simp [Int.ofNat_eq_natCast]
  | negSucc m =>
      have hbit : Nat.ldiff (2 ^ k) m = if Nat.testBit m k then 0 else 2 ^ k := by
        apply Nat.eq_of_testBit_eq
        intro i
        rw [Nat.testBit_ldiff]
        rcases eq_or_ne k i with rfl | hne
        · cases h0 : Nat.testBit m k <;>
            simp [h0, Nat.testBit_two_pow_self]
        · have h1 : Nat.testBit (2 ^ k) i = false :=
            Nat.testBit_two_pow_of_ne hne
          cases h0 : Nat.testBit m k <;> simp [h0, h1]
      have h : Int.land (Int.negSucc m) ((2 : Int) ^ k) =
          Int.ofNat (Nat.ldiff (2 ^ k) m) := by
        rw [hc k]; rfl
      have hm1 : Int.negSucc m % (2 : Int) ^ (k + 1) =
          2 ^ (k + 1) - 1 - (m : Int) % 2 ^ (k + 1) :=
        Int.negSucc_emod m (by positivity)
      have hm2 : Int.negSucc m % (2 : Int) ^ k =
          2 ^ k - 1 - (m : Int) % 2 ^ k :=
        Int.negSucc_emod m (by positivity)
      have h2 : ∀ j : Nat, (m : Int) % (2 : Int) ^ j = Int.ofNat (m % 2 ^ j) := by
        intro j; rw [hc j]; rfl
      have hdec := nat_mod_pow_succ m k
      have hpow : (2 : Int) ^ (k + 1) = 2 ^ k * 2 := by ring
      cases h0 : Nat.testBit m k with
      | true =>
          have hb : m / 2 ^ k % 2 = 1 := by
            simpa [Nat.testBit_to_div_mod] using h0
          rw [hb, mul_one] at hdec
          rw [h, hbit, h0, if_pos rfl, hm1, hm2, h2 (k + 1), h2 k, hdec, hpow]
          simp only [Int.ofNat_eq_natCast]
          push_cast
          ring
      | false =>
          have hb : m / 2 ^ k % 2 = 0 := by
            simpa [Nat.testBit_to_div_mod] using h0
          rw [hb, mul_zero, add_zero] at hdec
          rw [h, hbit, h0, if_neg Bool.false_ne_true, hm1, hm2, h2 (k + 1),
            h2 k, hdec, hpow]
          simp only [Int.ofNat_eq_natCast]
          push_cast
          ring

/-- Lowest bit of a two's-complement xor with a one-bit value. -/
theorem int_xor_emod_two (t r : Int) (hr : r = 0 ∨ r = 1) :
    Int.xor t r % 2 = (t % 2 + r) % 2 := by
  have h1 := int_emod_two_testBit (Int.xor t r)
  have h2 := int_emod_two_testBit t
  rw [Int.testBit_lxor] at h1
  have hr0 : Int.testBit 0 0 = false := by decide
  have hr1 : Int.testBit 1 0 = true := by decide
  rcases hr with rfl | rfl <;> cases h0 : t.testBit 0 <;>
      rw [h0] at h1 h2 <;> simp [hr0, hr1] at h1 h2 <;> omega

/-- `x & 0 = 0` on two's-complement integers. -/
theorem int_land_zero (x : Int) : Int.land x 0 = 0 := by
  cases x with
  | ofNat m =>
      have h : Int.land (Int.ofNat m) 0 = Int.ofNat (Nat.land m 0) := rfl
      have h1 : Nat.land m 0 = 0 := by
        have h2 : m &&& 0 = 0 := Nat.and_zero m
        simpa [HAnd.hAnd, AndOp.and] using h2
      rw [h, h1]; rfl
  | negSucc m =>
      have h : Int.land (Int.negSucc m) 0 = Int.ofNat (Nat.ldiff 0 m) := rfl
      have h0 : Nat.ldiff 0 m = 0 := by
        apply Nat.eq_of_testBit_eq
        intro i
        rw [Nat.testBit_ldiff]
        simp
      rw [h, h0]; rfl

/-- Bit 1 of an integer, extracted by floor-dividing by 2 and taking parity,
equals the second binary digit of the remainder modulo 4. -/
theorem int_div_two_emod_two (t : Int) : t / 2 % 2 = t % 4 / 2 := by
  obtain ⟨q, r, hr0, hr4, ht⟩ : ∃ q r : Int, 0 ≤ r ∧ r < 4 ∧ t = 4 * q + r :=
    ⟨t / 4, t % 4, by omega, by omega, by omega⟩
  subst ht
  have h1 : (4 * q + r) % 4 = r := by omega
  have h2 : (4 * q + r) / 2 = r / 2 + 2 * q := by
    rw [show (4 : Int) * q + r = r + 2 * (2 * q) by ring]
    exact Int.add_mul_ediv_left r (2 * q) two_ne_zero
  rw [h1, h2, Int.add_mul_emod_self_left]
  interval_cases r <;> decide

/-- Arithmetic variant of `i2pAux`: the bit operations
`1 & (t // 2)` and `1 & (t ^ rx)` are replaced by their remainder
characterisations.  Provably equal to `i2pAux` (`i2pAux_eq_E`) and
kernel-computable on every input. -/
def i2pAuxE : Nat → Int → Int → Int → Int → Int × Int
  | 0, x, y, _, _ => (x, y)
  | k + 1, x, y, t, s =>
    let rx : Int := t % 4 / 2
    let ry : Int := (t % 2 + rx) % 2
    let p := hilbert_rotate s x y rx ry
    i2pAuxE k (p.1 + s * rx) (p.2 + s * ry) (t / 4) (s * 2)

theorem i2pAux_eq_E : ∀ (k : Nat) (x y t s : Int),
    i2pAux k x y t s = i2pAuxE k x y t s := by
  intro k
  induction k with
  | zero => intro x y t s; rfl
  | succ k ih =>
      intro x y t s
      have hrx : Int.land 1 (t / 2) = t % 4 / 2 := by
        rw [int_land_one, int_div_two_emod_two]
      have hb : t % 4 / 2 = 0 ∨ t % 4 / 2 = 1 := by
        have h0 : 0 ≤ t % 4 := Int.emod_nonneg t (by norm_num)
        have h4 : t % 4 < 4 := Int.emod_lt_of_pos t (by norm_num)
        interval_cases h : t % 4 <;> simp
      have hry : Int.land 1 (Int.xor t (t % 4 / 2)) =
          (t % 2 + t % 4 / 2) % 2 := by
        rw [int_land_one, int_xor_emod_two t _ hb]
      show i2pAux (k + 1) x y t s = i2pAuxE (k + 1) x y t s
      simp only [i2pAux, i2pAuxE, hrx, hry]
      exact ih _ _ _ _

/-- Arithmetic variant of `p2iAux`: the bit test `(x & s) > 0` is replaced
by its remainder characterisation (valid because `s` is always zero or a
power of two along the loop).  Provably equal to `p2iAux`
(`p2iAux_eq_E`) and kernel-computable on every input. -/
def p2iAuxE : Nat → Int → Int → Int → Int → Int
  | 0, _, _, _, index => index
  | k + 1, x, y, s, index =>
    let rx : Int := if 0 < x % (2 * s) - x % s then 1 else 0
    let ry : Int := if 0 < y % (2 * s) - y % s then 1 else 0
    let index' := index + s * s * Int.xor (3 * rx) ry
    let p := hilbert_rotate s x y rx ry
    p2iAuxE k p.1 p.2 (s / 2) index'

theorem p2iAux_eq_E : ∀ (k : Nat) (x y s idx : Int),
    (s = 0 ∨ ∃ j : Nat, s = 2 ^ j) →
    p2iAux k x y s idx = p2iAuxE k x y s idx := by
  intro k
  induction k with
  | zero => intro x y s idx _; rfl
  | succ k ih =>
      intro x y s idx hs
      have hland : ∀ z : Int, Int.land z s = z % (2 * s) - z % s := by
        intro z
        rcases hs with rfl | ⟨j, rfl⟩
        · rw [int_land_zero]; simp
        · rw [int_land_two_pow z j]
          congr 2
          rw [pow_succ]
          ring
      have hs' : s / 2 = 0 ∨ ∃ j : Nat, s / 2 = 2 ^ j := by
        rcases hs with rfl | ⟨j, rfl⟩
        · left; rfl
        · cases j with
          | zero => left; rfl
          | succ j' =>
              right
              refine ⟨j', ?_⟩
              rw [pow_succ]
              exact Int.mul_ediv_cancel _ two_ne_zero
      show p2iAux (k + 1) x y s idx = p2iAuxE (k + 1) x y s idx
      simp only [p2iAux, p2iAuxE, hland]
      exact ih _ _ _ _ hs'

/-- The initial scale `2 ^ order.toNat // 2` of `point_to_hilbert_index` is
zero or a power of two. -/
theorem init_scale_pow (k : Nat) :
    ((2 : Int) ^ k / 2 = 0 ∨ ∃ j : Nat, (2 : Int) ^ k / 2 = 2 ^ j) := by
  cases k with
  | zero => left; rfl
  | succ j =>
      right
      refine ⟨j, ?_⟩
      rw [pow_succ]
      exact Int.mul_ediv_cancel _ two_ne_zero

theorem hilbert_index_to_point_eq_E (order index : Int) :
    hilbert_index_to_point order index = i2pAuxE order.toNat 0 0 index 1 :=
  i2pAux_eq_E _ _ _ _ _

theorem point_to_hilbert_index_eq_E (x y order : Int) :
    point_to_hilbert_index x y order =
      p2iAuxE order.toNat x y (2 ^ order.toNat / 2) 0 :=
  p2iAux_eq_E _ _ _ _ _ (init_scale_pow _)

/-! ## Structural lemmas about the two loops -/

/-- The forward map at order `n`: `hilbert_index_to_point` with fuel `n`. -/
def i2pE (n : Nat) (t : Int) : Int × Int :=
  i2pAuxE n 0 0 t 1

/-- The inverse map at order `n`: `point_to_hilbert_index` with fuel `n`. -/
def p2iE (n : Nat) (x y : Int) : Int :=
  p2iAuxE n x y (2 ^ n / 2) 0

theorem hilbert_index_to_point_as_E (n : Nat) (t : Int) :
    hilbert_index_to_point (n : Int) t = i2pE n t := by
  rw [hilbert_index_to_point_eq_E, i2pE, Int.toNat_natCast]

theorem point_to_hilbert_index_as_E (n : Nat) (x y : Int) :
    point_to_hilbert_index x y (n : Int) = p2iE n x y := by
  rw [point_to_hilbert_index_eq_E, p2iE, Int.toNat_natCast]

theorem pow_succ_div_two (n : Nat) : (2 : Int) ^ (n + 1) / 2 = 2 ^ n := by
  rw [pow_succ]
  exact Int.mul_ediv_cancel _ two_ne_zero

theorem four_pow_int (n : Nat) : (4 : Int) ^ n = 2 ^ n * 2 ^ n := by
  rw [show (4 : Int) = 2 * 2 by norm_num, mul_pow]

theorem int_ediv_ediv (t a b : Int) (ha : 0 < a) (hb : 0 < b) :
    t / a / b = t / (a * b) := by
  have hab : 0 < a * b := mul_pos ha hb
  obtain ⟨q, R, hR0, hRab, ht⟩ :
      ∃ q R : Int, 0 ≤ R ∧ R < a * b ∧ t = R + a * b * q :=
    ⟨t / (a * b), t % (a * b), Int.emod_nonneg t hab.ne',
      Int.emod_lt_of_pos t hab, by
        have := Int.ediv_add_emod t (a * b)
        linarith⟩
  subst ht
  have h1 : (R + a * b * q) / a = R / a + b * q := by
    rw [show R + a * b * q = R + a * (b * q) by ring]
    exact Int.add_mul_ediv_left R (b * q) ha.ne'
  have hRa : R / a < b := Int.ediv_lt_of_lt_mul ha (by linarith [mul_comm a b])
  have h2 : (R / a + b * q) / b = R / a / b + q :=
    Int.add_mul_ediv_left _ q hb.ne'
  have h3 : R / a / b = 0 :=
    Int.ediv_eq_zero_of_lt (Int.ediv_nonneg hR0 ha.le) hRa
  have h4 : (R + a * b * q) / (a * b) = R / (a * b) + q := by
    rw [show R + a * b * q = R + (a * b) * q by ring]
    exact Int.add_mul_ediv_left R q hab.ne'
  have h5 : R / (a * b) = 0 := Int.ediv_eq_zero_of_lt hR0 hRab
  rw [h1, h2, h3, h4, h5]

/-- The quotient-then-remainder exchange:
`t / a % m = t % (a * m) / a` for positive `a`, `m`. -/
theorem int_ediv_emod_exchange (t a m : Int) (ha : 0 < a) (hm : 0 < m) :
    t / a % m = t % (a * m) / a := by
  have ham : 0 < a * m := mul_pos ha hm
  obtain ⟨q, R, hR0, hRam, ht⟩ :
      ∃ q R : Int, 0 ≤ R ∧ R < a * m ∧ t = R + a * m * q :=
    ⟨t / (a * m), t % (a * m), Int.emod_nonneg t ham.ne',
      Int.emod_lt_of_pos t ham, by
        have := Int.ediv_add_emod t (a * m)
        linarith⟩
  subst ht
  have h1 : (R + a * m * q) / a = R / a + m * q := by
    rw [show R + a * m * q = R + a * (m * q) by ring]
    exact Int.add_mul_ediv_left R (m * q) ha.ne'
  have h2 : (R / a + m * q) % m = R / a % m := Int.add_mul_emod_self_left _ _ _
  have hRa : R / a < m := Int.ediv_lt_of_lt_mul ha (by linarith [mul_comm a m])
  have h3 : R / a % m = R / a :=
    Int.emod_eq_of_lt (Int.ediv_nonneg hR0 ha.le) hRa
  have h4 : (R + a * m * q) % (a * m) = R % (a * m) := by
    rw [show R + a * m * q = R + (a * m) * q by ring]
    exact Int.add_mul_emod_self_left _ _ _
  have h5 : R % (a * m) = R := Int.emod_eq_of_lt hR0 hRam
  rw [h1, h2, h3, h4, h5]

/-- Accumulator linearity of the inverse loop. -/
theorem p2iAuxE_acc : ∀ (k : Nat) (x y s a : Int),
    p2iAuxE k x y s a = a + p2iAuxE k x y s 0 := by
  intro k
  induction k with
  | zero => intro x y s a; show a = a + 0; ring
  | succ k ih =>
      intro x y s a
      show p2iAuxE (k + 1) x y s a = a + p2iAuxE (k + 1) x y s 0
      simp only [p2iAuxE]
      rw [ih _ _ _ (a + _), ih _ _ _ (0 + _)]
      ring

/-- The single most significant step of the forward loop. -/
def i2pStep (t' s' : Int) (p : Int × Int) : Int × Int :=
  let rx : Int := t' % 4 / 2
  let ry : Int := (t' % 2 + rx) % 2
  let q := hilbert_rotate s' p.1 p.2 rx ry
  (q.1 + s' * rx, q.2 + s' * ry)

/-- Peeling the last (most significant) iteration off the forward loop. -/
theorem i2pAuxE_succ_last : ∀ (k : Nat) (x y t s : Int),
    i2pAuxE (k + 1) x y t s =
      i2pStep (t / 4 ^ k) (s * 2 ^ k) (i2pAuxE k x y t s) := by
  intro k
  induction k with
  | zero =>
      intro x y t s
      show i2pAuxE 1 x y t s = i2pStep (t / 4 ^ 0) (s * 2 ^ 0) (x, y)
      simp only [i2pAuxE, i2pStep, pow_zero, Int.ediv_one, mul_one]
  | succ k ih =>
      intro x y t s
      have hstep : i2pAuxE (k + 2) x y t s =
          i2pAuxE (k + 1)
            ((hilbert_rotate s x y (t % 4 / 2) ((t % 2 + t % 4 / 2) % 2)).1 +
              s * (t % 4 / 2))
            ((hilbert_rotate s x y (t % 4 / 2) ((t % 2 + t % 4 / 2) % 2)).2 +
              s * ((t % 2 + t % 4 / 2) % 2))
            (t / 4) (s * 2) := rfl
      have hstep' : i2pAuxE (k + 1) x y t s =
          i2pAuxE k
            ((hilbert_rotate s x y (t % 4 / 2) ((t % 2 + t % 4 / 2) % 2)).1 +
              s * (t % 4 / 2))
            ((hilbert_rotate s x y (t % 4 / 2) ((t % 2 + t % 4 / 2) % 2)).2 +
              s * ((t % 2 + t % 4 / 2) % 2))
            (t / 4) (s * 2) := rfl
      rw [hstep, ih, hstep']
      have h1 : t / 4 / 4 ^ k = t / 4 ^ (k + 1) := by
        rw [int_ediv_ediv t 4 (4 ^ k) (by norm_num) (by positivity),
          ← pow_succ']
      have h2 : s * 2 * 2 ^ k = s * 2 ^ (k + 1) := by
        rw [pow_succ]; ring
      rw [h1, h2]

/-- The forward loop reads only bits `0 .. 2k-1` of `t`:
congruence modulo `4^k` of the index is respected. -/
theorem i2pAuxE_congr_mod : ∀ (k : Nat) (x y s t u : Int),
    t % 4 ^ k = u % 4 ^ k →
    i2pAuxE k x y t s = i2pAuxE k x y u s := by
  intro k
  induction k with
  | zero => intro x y s t u _; rfl
  | succ k ih =>
      intro x y s t u h
      have h4 : (4 : Int) ∣ 4 ^ (k + 1) := dvd_pow_self 4 (Nat.succ_ne_zero k)
      have h2 : (2 : Int) ∣ 4 ^ (k + 1) :=
        dvd_trans (by norm_num) h4
      have ha : t % 4 = u % 4 := by
        rw [← Int.emod_emod_of_dvd t h4, ← Int.emod_emod_of_dvd u h4, h]
      have hb : t % 2 = u % 2 := by
        rw [← Int.emod_emod_of_dvd t h2, ← Int.emod_emod_of_dvd u h2, h]
      have hc : t / 4 % 4 ^ k = u / 4 % 4 ^ k := by
        rw [int_ediv_emod_exchange t 4 (4 ^ k) (by norm_num) (by positivity),
          int_ediv_emod_exchange u 4 (4 ^ k) (by norm_num) (by positivity),
          ← pow_succ', h]
      show i2pAuxE (k + 1) x y t s = i2pAuxE (k + 1) x y u s
      simp only [i2pAuxE, ha, hb]
      exact ih _ _ _ _ _ hc

/-- The inverse loop started at scale `2^k / 2` reads only bits `0 .. k-1`
of the coordinates: congruence modulo `2^k` of both coordinates is
respected. -/
theorem p2iAuxE_congr_mod : ∀ (k : Nat) (x x' y y' a : Int),
    x % 2 ^ k = x' % 2 ^ k → y % 2 ^ k = y' % 2 ^ k →
    p2iAuxE k x y (2 ^ k / 2) a = p2iAuxE k x' y' (2 ^ k / 2) a := by
  intro k
  induction k with
  | zero => intro x x' y y' a _ _; rfl
  | succ k ih =>
      intro x x' y y' a hx hy
      have hs : (2 : Int) ^ (k + 1) / 2 = 2 ^ k := pow_succ_div_two k
      have hmul : (2 : Int) * 2 ^ k = 2 ^ (k + 1) := by rw [pow_succ]; ring
      have hdvd : (2 : Int) ^ k ∣ 2 ^ (k + 1) := pow_dvd_pow 2 (by omega)
      have hxk : x % 2 ^ k = x' % 2 ^ k := by
        rw [← Int.emod_emod_of_dvd x hdvd, ← Int.emod_emod_of_dvd x' hdvd, hx]
      have hyk : y % 2 ^ k = y' % 2 ^ k := by
        rw [← Int.emod_emod_of_dvd y hdvd, ← Int.emod_emod_of_dvd y' hdvd, hy]
      show p2iAuxE (k + 1) x y (2 ^ (k + 1) / 2) a =
        p2iAuxE (k + 1) x' y' (2 ^ (k + 1) / 2) a
      rw [hs]
      show p2iAuxE k
          (hilbert_rotate (2 ^ k) x y _ _).1 (hilbert_rotate (2 ^ k) x y _ _).2
          (2 ^ k / 2) _ =
        p2iAuxE k
          (hilbert_rotate (2 ^ k) x' y' _ _).1
          (hilbert_rotate (2 ^ k) x' y' _ _).2 (2 ^ k / 2) _
      rw [hmul, hx, hy, hxk, hyk]
      set rx : Int := if 0 < x' % 2 ^ (k + 1) - x' % 2 ^ k then 1 else 0 with hrx
      set ry : Int := if 0 < y' % 2 ^ (k + 1) - y' % 2 ^ k then 1 else 0 with hry
      have hrot : ∀ u u' v v' : Int,
          u % 2 ^ k = u' % 2 ^ k → v % 2 ^ k = v' % 2 ^ k →
          (hilbert_rotate (2 ^ k) u v rx ry).1 % 2 ^ k =
              (hilbert_rotate (2 ^ k) u' v' rx ry).1 % 2 ^ k ∧
            (hilbert_rotate (2 ^ k) u v rx ry).2 % 2 ^ k =
              (hilbert_rotate (2 ^ k) u' v' rx ry).2 % 2 ^ k := by
        intro u u' v v' hu hv
        unfold hilbert_rotate
        by_cases h0 : ry = 0 <;> by_cases h1 : rx = 1 <;>
            simp only [h0, h1, if_true, if_false, if_pos, if_neg] <;>
          constructor <;>
          first
            | exact hu
            | exact hv
            | (rw [Int.sub_emod _ u, Int.sub_emod _ u', hu])
            | (rw [Int.sub_emod _ v, Int.sub_emod _ v', hv])
      rcases hrot x x' y y' hxk hyk with ⟨hr1, hr2⟩
      exact ih _ _ _ _ _ hr1 hr2

/-- Unfolding one (most significant) step of the inverse loop at scale
`2^(k+1) / 2 = 2^k`. -/
theorem p2iAuxE_succ_unfold (k : Nat) (x y a : Int) :
    p2iAuxE (k + 1) x y (2 ^ (k + 1) / 2) a =
      p2iAuxE k
        (hilbert_rotate (2 ^ k) x y
          (if 0 < x % 2 ^ (k + 1) - x % 2 ^ k then 1 else 0)
          (if 0 < y % 2 ^ (k + 1) - y % 2 ^ k then 1 else 0)).1
        (hilbert_rotate (2 ^ k) x y
          (if 0 < x % 2 ^ (k + 1) - x % 2 ^ k then 1 else 0)
          (if 0 < y % 2 ^ (k + 1) - y % 2 ^ k then 1 else 0)).2
        (2 ^ k / 2)
        (a + 2 ^ k * 2 ^ k *
          Int.xor (3 * (if 0 < x % 2 ^ (k + 1) - x % 2 ^ k then 1 else 0))
            (if 0 < y % 2 ^ (k + 1) - y % 2 ^ k then 1 else 0)) := by
  rw [pow_succ_div_two]
  simp only [p2iAuxE]
  rw [show (2 : Int) * 2 ^ k = 2 ^ (k + 1) from by rw [pow_succ]; ring]

/-- Bounds and left-inverse property of the forward map: for every order
`n` and index `t ∈ [0, 4^n)`, the point lies in the grid `[0, 2^n)²` and
the inverse loop recovers `t`. -/
theorem i2pE_bounds_inverse : ∀ (n : Nat) (t : Int), 0 ≤ t → t < 4 ^ n →
    0 ≤ (i2pE n t).1 ∧ (i2pE n t).1 < 2 ^ n ∧
    0 ≤ (i2pE n t).2 ∧ (i2pE n t).2 < 2 ^ n ∧
    p2iE n (i2pE n t).1 (i2pE n t).2 = t := by
  intro n
  induction n with
  | zero =>
      intro t ht0 ht1
      have ht : t = 0 := by omega
      subst ht
      exact ⟨by decide, by decide, by decide, by decide, rfl⟩
  | succ n ih =>
      intro t ht0 ht1
      have hpos4 : (0 : Int) < 4 ^ n := by positivity
      have hpos2 : (0 : Int) < 2 ^ n := by positivity
      have h2pow : (2 : Int) ^ (n + 1) = 2 * 2 ^ n := by rw [pow_succ]; ring
      have h4pow : (4 : Int) ^ (n + 1) = 4 ^ n * 4 := by rw [pow_succ]
      have hr0 : 0 ≤ t % 4 ^ n := Int.emod_nonneg t hpos4.ne'
      have hr4 : t % 4 ^ n < 4 ^ n := Int.emod_lt_of_pos t hpos4
      obtain ⟨d, hd, hd0, hd4⟩ : ∃ d, t / 4 ^ n = d ∧ 0 ≤ d ∧ d < 4 :=
        ⟨t / 4 ^ n, rfl, Int.ediv_nonneg ht0 hpos4.le,
          Int.ediv_lt_of_lt_mul hpos4 (by rw [mul_comm]; omega)⟩
      have htd : t = 4 ^ n * d + t % 4 ^ n := by
        rw [← hd]; exact (Int.ediv_add_emod t (4 ^ n)).symm
      obtain ⟨a, b, hab⟩ : ∃ a b, i2pE n (t % 4 ^ n) = (a, b) := ⟨_, _, rfl⟩
      obtain ⟨ha0, ha2, hb0, hb2, hinv⟩ := ih (t % 4 ^ n) hr0 hr4
      rw [hab] at ha0 ha2 hb0 hb2 hinv
      simp only at ha0 ha2 hb0 hb2 hinv
      have hpeel : i2pE (n + 1) t = i2pStep d (2 ^ n) (a, b) := by
        show i2pAuxE (n + 1) 0 0 t 1 = _
        rw [i2pAuxE_succ_last n 0 0 t 1, one_mul, hd]
        congr 1
        rw [show i2pAuxE n 0 0 t 1 = i2pE n t from rfl, ← hab]
        exact congrArg (i2pE n) rfl |>.trans
          (i2pAuxE_congr_mod n 0 0 1 t (t % 4 ^ n)
            (by rw [Int.emod_emod_of_dvd _ dvd_rfl]))
      have hbmod : b % 2 ^ n = b := Int.emod_eq_of_lt hb0 hb2
      have hamod : a % 2 ^ n = a := Int.emod_eq_of_lt ha0 ha2
      interval_cases d
      · -- quadrant 0: point (b, a)
        have hstep : i2pStep 0 (2 ^ n) (a, b) = (b, a) := by
          simp [i2pStep, hilbert_rotate]
        rw [hstep] at hpeel
        rw [hpeel]
        refine ⟨hb0, by omega, ha0, by omega, ?_⟩
        show p2iAuxE (n + 1) b a (2 ^ (n + 1) / 2) 0 = t
        rw [p2iAuxE_succ_unfold]
        have hbm1 : b % 2 ^ (n + 1) = b := Int.emod_eq_of_lt hb0 (by omega)
        have ham1 : a % 2 ^ (n + 1) = a := Int.emod_eq_of_lt ha0 (by omega)
        rw [hbm1, ham1, hbmod, hamod]
        rw [if_neg (show ¬((0 : Int) < b - b) by omega),
          if_neg (show ¬((0 : Int) < a - a) by omega)]
        have hrot : hilbert_rotate (2 ^ n) b a 0 0 = (a, b) := by
          simp [hilbert_rotate]
        rw [hrot]
        have hxor : Int.xor (3 * 0) 0 = 0 := by decide
        rw [hxor, mul_zero, add_zero]
        show p2iE n a b = t
        rw [hinv]
        omega
      · -- quadrant 1: point (a, b + 2^n)
        have hstep : i2pStep 1 (2 ^ n) (a, b) = (a, b + 2 ^ n) := by
          simp only [i2pStep, hilbert_rotate]
          norm_num
        rw [hstep] at hpeel
        rw [hpeel]
        refine ⟨ha0, by omega, by omega, by omega, ?_⟩
        show p2iAuxE (n + 1) a (b + 2 ^ n) (2 ^ (n + 1) / 2) 0 = t
        rw [p2iAuxE_succ_unfold]
        have ham1 : a % 2 ^ (n + 1) = a := Int.emod_eq_of_lt ha0 (by omega)
        have hym1 : (b + 2 ^ n) % 2 ^ (n + 1) = b + 2 ^ n :=
          Int.emod_eq_of_lt (by omega) (by omega)
        have hym2 : (b + 2 ^ n) % 2 ^ n = b := by
          rw [show b + 2 ^ n = b + 2 ^ n * 1 from by ring,
            Int.add_mul_emod_self_left, hbmod]
        rw [ham1, hym1, hym2, hamod]
        rw [if_neg (show ¬((0 : Int) < a - a) by omega),
          if_pos (show (0 : Int) < b + 2 ^ n - b by omega)]
        have hrot : hilbert_rotate (2 ^ n) a (b + 2 ^ n) 0 1 = (a, b + 2 ^ n) := by
          simp [hilbert_rotate]
        rw [hrot]
        have hxor : Int.xor (3 * 0) 1 = 1 := by decide
        rw [hxor, mul_one, zero_add]
        rw [p2iAuxE_acc n a (b + 2 ^ n) (2 ^ n / 2) (2 ^ n * 2 ^ n)]
        rw [p2iAuxE_congr_mod n a a (b + 2 ^ n) b 0 rfl (by rw [hym2, hbmod])]
        show 2 ^ n * 2 ^ n + p2iE n a b = t
        rw [hinv, ← four_pow_int]
        omega
      · -- quadrant 2: point (a + 2^n, b + 2^n)
        have hstep : i2pStep 2 (2 ^ n) (a, b) = (a + 2 ^ n, b + 2 ^ n) := by
          simp only [i2pStep, hilbert_rotate]
          norm_num
        rw [hstep] at hpeel
        rw [hpeel]
        refine ⟨by omega, by omega, by omega, by omega, ?_⟩
        show p2iAuxE (n + 1) (a + 2 ^ n) (b + 2 ^ n) (2 ^ (n + 1) / 2) 0 = t
        rw [p2iAuxE_succ_unfold]
        have hxm1 : (a + 2 ^ n) % 2 ^ (n + 1) = a + 2 ^ n :=
          Int.emod_eq_of_lt (by omega) (by omega)
        have hxm2 : (a + 2 ^ n) % 2 ^ n = a := by
          rw [show a + 2 ^ n = a + 2 ^ n * 1 from by ring,
            Int.add_mul_emod_self_left, hamod]
        have hym1 : (b + 2 ^ n) % 2 ^ (n + 1) = b + 2 ^ n :=
          Int.emod_eq_of_lt (by omega) (by omega)
        have hym2 : (b + 2 ^ n) % 2 ^ n = b := by
          rw [show b + 2 ^ n = b + 2 ^ n * 1 from by ring,
            Int.add_mul_emod_self_left, hbmod]
        rw [hxm1, hxm2, hym1, hym2]
        rw [if_pos (show (0 : Int) < a + 2 ^ n - a by omega),
          if_pos (show (0 : Int) < b + 2 ^ n - b by omega)]
        have hrot : hilbert_rotate (2 ^ n) (a + 2 ^ n) (b + 2 ^ n) 1 1 =
            (a + 2 ^ n, b + 2 ^ n) := by
          simp [hilbert_rotate]
        rw [hrot]
        have hxor : Int.xor (3 * 1) 1 = 2 := by decide
        rw [hxor, zero_add]
        rw [p2iAuxE_acc n (a + 2 ^ n) (b + 2 ^ n) (2 ^ n / 2) (2 ^ n * 2 ^ n * 2)]
        rw [p2iAuxE_congr_mod n (a + 2 ^ n) a (b + 2 ^ n) b 0
          (by rw [hxm2, hamod]) (by rw [hym2, hbmod])]
        show 2 ^ n * 2 ^ n * 2 + p2iE n a b = t
        rw [hinv]
        have h4p : (4 : Int) ^ n = 2 ^ n * 2 ^ n := four_pow_int n
        omega
      · -- quadrant 3: point (2^(n+1) - 1 - b, 2^n - 1 - a)
        have hstep : i2pStep 3 (2 ^ n) (a, b) =
            (2 ^ n - 1 - b + 2 ^ n, 2 ^ n - 1 - a) := by
          simp only [i2pStep, hilbert_rotate]
          norm_num
        rw [hstep] at hpeel
        rw [hpeel]
        refine ⟨by omega, by omega, by omega, by omega, ?_⟩
        show p2iAuxE (n + 1) (2 ^ n - 1 - b + 2 ^ n) (2 ^ n - 1 - a)
          (2 ^ (n + 1) / 2) 0 = t
        rw [p2iAuxE_succ_unfold]
        have hxm1 : (2 ^ n - 1 - b + 2 ^ n) % 2 ^ (n + 1) =
            2 ^ n - 1 - b + 2 ^ n :=
          Int.emod_eq_of_lt (by omega) (by omega)
        have hxm2 : (2 ^ n - 1 - b + 2 ^ n) % 2 ^ n = 2 ^ n - 1 - b := by
          rw [show 2 ^ n - 1 - b + 2 ^ n = (2 ^ n - 1 - b) + 2 ^ n * 1 from
            by ring, Int.add_mul_emod_self_left]
          exact Int.emod_eq_of_lt (by omega) (by omega)
        have hym1 : (2 ^ n - 1 - a) % 2 ^ (n + 1) = 2 ^ n - 1 - a :=
          Int.emod_eq_of_lt (by omega) (by omega)
        have hym2 : (2 ^ n - 1 - a) % 2 ^ n = 2 ^ n - 1 - a :=
          Int.emod_eq_of_lt (by omega) (by omega)
        rw [hxm1, hxm2, hym1, hym2]
        rw [if_pos (show (0 : Int) <
            2 ^ n - 1 - b + 2 ^ n - (2 ^ n - 1 - b) by omega),
          if_neg (show ¬((0 : Int) <
            2 ^ n - 1 - a - (2 ^ n - 1 - a)) by omega)]
        have hrot : hilbert_rotate (2 ^ n) (2 ^ n - 1 - b + 2 ^ n)
            (2 ^ n - 1 - a) 1 0 = (a, b - 2 ^ n) := by
          simp only [hilbert_rotate]
          norm_num
          ring
        rw [hrot]
        have hxor : Int.xor (3 * 1) 0 = 3 := by decide
        rw [hxor, zero_add]
        rw [p2iAuxE_acc n a (b - 2 ^ n) (2 ^ n / 2) (2 ^ n * 2 ^ n * 3)]
        have hbsub : (b - 2 ^ n) % 2 ^ n = b % 2 ^ n := by
          rw [show b - 2 ^ n = b + 2 ^ n * (-1) from by ring,
            Int.add_mul_emod_self_left]
        rw [p2iAuxE_congr_mod n a a (b - 2 ^ n) b 0 rfl (by rw [hbsub, hbmod])]
        show 2 ^ n * 2 ^ n * 3 + p2iE n a b = t
        rw [hinv]
        have h4p : (4 : Int) ^ n = 2 ^ n * 2 ^ n := four_pow_int n
        omega

/-! ## Bijectivity -/

/-- The coordinate grid `[0, 2^n) × [0, 2^n)` as a finite set. -/
def gridFinset (n : Nat) : Finset (Int × Int) :=
  Finset.Ico 0 (2 ^ n) ×ˢ Finset.Ico 0 (2 ^ n)

theorem mem_gridFinset (n : Nat) (p : Int × Int) :
    p ∈ gridFinset n ↔
      0 ≤ p.1 ∧ p.1 < 2 ^ n ∧ 0 ≤ p.2 ∧ p.2 < 2 ^ n := by
  simp only [gridFinset, Finset.mem_product, Finset.mem_Ico]
  tauto

theorem int_toNat_two_pow (n : Nat) : ((2 : Int) ^ n).toNat = 2 ^ n := by
  rw [show (2 : Int) ^ n = ((2 ^ n : Nat) : Int) by push_cast; ring,
    Int.toNat_natCast]

theorem int_toNat_four_pow (n : Nat) : ((4 : Int) ^ n).toNat = 4 ^ n := by
  rw [show (4 : Int) ^ n = ((4 ^ n : Nat) : Int) by push_cast; ring,
    Int.toNat_natCast]

theorem card_gridFinset (n : Nat) : (gridFinset n).card = 4 ^ n := by
  rw [gridFinset, Finset.card_product, Int.card_Ico, sub_zero,
    int_toNat_two_pow]
  rw [show (4 : Nat) = 2 * 2 by norm_num, Nat.mul_pow]

/-- Injectivity of the forward map on `[0, 4^n)`. -/
theorem i2pE_injOn (n : Nat) (t u : Int)
    (ht0 : 0 ≤ t) (ht1 : t < 4 ^ n) (hu0 : 0 ≤ u) (hu1 : u < 4 ^ n)
    (h : i2pE n t = i2pE n u) : t = u := by
  have h1 := (i2pE_bounds_inverse n t ht0 ht1).2.2.2.2
  have h2 := (i2pE_bounds_inverse n u hu0 hu1).2.2.2.2
  rw [← h1, ← h2, h]

/-- Surjectivity of the forward map onto the grid. -/
theorem i2pE_surjOn (n : Nat) (x y : Int)
    (hx0 : 0 ≤ x) (hx1 : x < 2 ^ n) (hy0 : 0 ≤ y) (hy1 : y < 2 ^ n) :
    ∃ t : Int, 0 ≤ t ∧ t < 4 ^ n ∧ i2pE n t = (x, y) := by
  classical
  set F : Finset (Int × Int) :=
    (Finset.Ico (0 : Int) (4 ^ n)).image (i2pE n) with hF
  have hsub : F ⊆ gridFinset n := by
    intro p hp
    rw [hF, Finset.mem_image] at hp
    obtain ⟨t, htmem, hpt⟩ := hp
    rw [Finset.mem_Ico] at htmem
    obtain ⟨h1, h2, h3, h4, _⟩ :=
      i2pE_bounds_inverse n t htmem.1 htmem.2
    rw [mem_gridFinset]
    rw [← hpt]
    exact ⟨h1, h2, h3, h4⟩
  have hcard : F.card = (gridFinset n).card := by
    rw [hF, card_gridFinset]
    rw [Finset.card_image_of_injOn]
    · rw [Int.card_Ico, sub_zero, int_toNat_four_pow]
    · intro t ht u hu h
      rw [Finset.coe_Ico, Set.mem_Ico] at ht hu
      exact i2pE_injOn n t u ht.1 ht.2 hu.1 hu.2 h
  have heq : F = gridFinset n :=
    Finset.eq_of_subset_of_card_le hsub (le_of_eq hcard.symm)
  have hmem : (x, y) ∈ F := by
    rw [heq, mem_gridFinset]
    exact ⟨hx0, hx1, hy0, hy1⟩
  rw [hF, Finset.mem_image] at hmem
  obtain ⟨t, htmem, hpt⟩ := hmem
  rw [Finset.mem_Ico] at htmem
  exact ⟨t, htmem.1, htmem.2, hpt⟩

/-- Right-inverse property and range of the inverse map on the grid. -/
theorem p2iE_bounds_inverse (n : Nat) (x y : Int)
    (hx0 : 0 ≤ x) (hx1 : x < 2 ^ n) (hy0 : 0 ≤ y) (hy1 : y < 2 ^ n) :
    0 ≤ p2iE n x y ∧ p2iE n x y < 4 ^ n ∧
      i2pE n (p2iE n x y) = (x, y) := by
  obtain ⟨t, ht0, ht1, hpt⟩ := i2pE_surjOn n x y hx0 hx1 hy0 hy1
  have h := (i2pE_bounds_inverse n t ht0 ht1).2.2.2.2
  rw [hpt] at h
  simp only at h
  rw [h]
  exact ⟨ht0, ht1, hpt⟩

/-! ## Adjacency -/

/-- Decomposition of the forward map at order `n + 1` into the top quadrant
selector `t / 4^n` and the order-`n` curve on `t % 4^n`. -/
theorem i2pE_succ_decomp (n : Nat) (t : Int) :
    i2pE (n + 1) t = i2pStep (t / 4 ^ n) (2 ^ n) (i2pE n (t % 4 ^ n)) := by
  show i2pAuxE (n + 1) 0 0 t 1 = _
  rw [i2pAuxE_succ_last n 0 0 t 1, one_mul]
  congr 1
  exact i2pAuxE_congr_mod n 0 0 1 t (t % 4 ^ n)
    (by rw [Int.emod_emod_of_dvd _ dvd_rfl])

theorem i2pAuxE_zero : ∀ (k : Nat) (s : Int), i2pAuxE k 0 0 0 s = (0, 0) := by
  intro k
  induction k with
  | zero => intro s; rfl
  | succ k ih =>
      intro s
      show i2pAuxE (k + 1) 0 0 0 s = (0, 0)
      simp only [i2pAuxE]
      norm_num [hilbert_rotate]
      exact ih (s * 2)

/-- The curve starts at the origin. -/
theorem i2pE_zero (n : Nat) : i2pE n 0 = (0, 0) :=
  i2pAuxE_zero n 1

/-- The curve ends at the lower-right corner `(2^n - 1, 0)`. -/
theorem i2pE_last : ∀ n : Nat, i2pE n (4 ^ n - 1) = (2 ^ n - 1, 0) := by
  intro n
  induction n with
  | zero => norm_num [i2pE, i2pAuxE]
  | succ n ih =>
      have hpos4 : (0 : Int) < 4 ^ n := by positivity
      have hpos2 : (0 : Int) < 2 ^ n := by positivity
      have hts : (4 : Int) ^ (n + 1) - 1 = (4 ^ n - 1) + 4 ^ n * 3 := by
        rw [pow_succ]; ring
      have hd : ((4 : Int) ^ (n + 1) - 1) / 4 ^ n = 3 := by
        rw [hts, Int.add_mul_ediv_left _ 3 hpos4.ne',
          Int.ediv_eq_zero_of_lt (by omega) (by omega), zero_add]
      have hr : ((4 : Int) ^ (n + 1) - 1) % 4 ^ n = 4 ^ n - 1 := by
        rw [hts, Int.add_mul_emod_self_left,
          Int.emod_eq_of_lt (by omega) (by omega)]
      rw [i2pE_succ_decomp, hd, hr, ih]
      have h2pow : (2 : Int) ^ (n + 1) = 2 * 2 ^ n := by rw [pow_succ]; ring
      simp only [i2pStep, hilbert_rotate]
      norm_num
      omega

/-- Chebyshev distance between two grid points. -/
def chebyshev (p q : Int × Int) : Nat :=
  max (p.1 - q.1).natAbs (p.2 - q.2).natAbs

/-- Consecutive curve points are at Chebyshev distance exactly 1. -/
theorem i2pE_adjacent : ∀ (n : Nat) (t : Int), 0 ≤ t → t + 1 < 4 ^ n →
    chebyshev (i2pE n t) (i2pE n (t + 1)) = 1 := by
  intro n
  induction n with
  | zero =>
      intro t ht0 ht1
      norm_num at ht1
      omega
  | succ n ih =>
      intro t ht0 ht1
      have hpos4 : (0 : Int) < 4 ^ n := by positivity
      have hpos2 : (0 : Int) < 2 ^ n := by positivity
      have h4pow : (4 : Int) ^ (n + 1) = 4 ^ n * 4 := by rw [pow_succ]
      have hr0 : 0 ≤ t % 4 ^ n := Int.emod_nonneg t hpos4.ne'
      have hr4 : t % 4 ^ n < 4 ^ n := Int.emod_lt_of_pos t hpos4
      obtain ⟨d, hd, hd0, hd4⟩ : ∃ d, t / 4 ^ n = d ∧ 0 ≤ d ∧ d < 4 :=
        ⟨t / 4 ^ n, rfl, Int.ediv_nonneg ht0 hpos4.le,
          Int.ediv_lt_of_lt_mul hpos4 (by rw [mul_comm]; omega)⟩
      have htd : t = 4 ^ n * d + t % 4 ^ n := by
        rw [← hd]; exact (Int.ediv_add_emod t (4 ^ n)).symm
      by_cases hlt : t % 4 ^ n + 1 < 4 ^ n
      · -- both indices lie in the same top-level quadrant
        have hd' : (t + 1) / 4 ^ n = d := by
          rw [show t + 1 = (t % 4 ^ n + 1) + 4 ^ n * d from by omega,
            Int.add_mul_ediv_left _ d hpos4.ne',
            Int.ediv_eq_zero_of_lt (by omega) hlt, zero_add]
        have hr' : (t + 1) % 4 ^ n = t % 4 ^ n + 1 := by
          rw [show t + 1 = (t % 4 ^ n + 1) + 4 ^ n * d from by omega,
            Int.add_mul_emod_self_left,
            Int.emod_eq_of_lt (by omega) hlt]
        have hIH := ih (t % 4 ^ n) hr0 hlt
        obtain ⟨a, b, hab⟩ : ∃ a b, i2pE n (t % 4 ^ n) = (a, b) := ⟨_, _, rfl⟩
        obtain ⟨a', b', hab'⟩ : ∃ a b, i2pE n (t % 4 ^ n + 1) = (a, b) :=
          ⟨_, _, rfl⟩
        rw [hab, hab'] at hIH
        rw [i2pE_succ_decomp n t, i2pE_succ_decomp n (t + 1), hd, hd', hr',
          hab, hab']
        interval_cases d
        · show chebyshev (i2pStep 0 (2 ^ n) (a, b))
            (i2pStep 0 (2 ^ n) (a', b')) = 1
          have h1 : i2pStep 0 (2 ^ n) (a, b) = (b, a) := by
            simp [i2pStep, hilbert_rotate]
          have h2 : i2pStep 0 (2 ^ n) (a', b') = (b', a') := by
            simp [i2pStep, hilbert_rotate]
          rw [h1, h2]
          show max (b - b').natAbs (a - a').natAbs = 1
          rw [Nat.max_comm]
          exact hIH
        · show chebyshev (i2pStep 1 (2 ^ n) (a, b))
            (i2pStep 1 (2 ^ n) (a', b')) = 1
          have h1 : i2pStep 1 (2 ^ n) (a, b) = (a, b + 2 ^ n) := by
            simp only [i2pStep, hilbert_rotate]; norm_num
          have h2 : i2pStep 1 (2 ^ n) (a', b') = (a', b' + 2 ^ n) := by
            simp only [i2pStep, hilbert_rotate]; norm_num
          rw [h1, h2]
          show max (a - a').natAbs ((b + 2 ^ n) - (b' + 2 ^ n)).natAbs = 1
          rw [show (b + 2 ^ n) - (b' + 2 ^ n) = b - b' from by ring]
          exact hIH
        · show chebyshev (i2pStep 2 (2 ^ n) (a, b))
            (i2pStep 2 (2 ^ n) (a', b')) = 1
          have h1 : i2pStep 2 (2 ^ n) (a, b) = (a + 2 ^ n, b + 2 ^ n) := by
            simp only [i2pStep, hilbert_rotate]; norm_num
          have h2 : i2pStep 2 (2 ^ n) (a', b') = (a' + 2 ^ n, b' + 2 ^ n) := by
            simp only [i2pStep, hilbert_rotate]; norm_num
          rw [h1, h2]
          show max ((a + 2 ^ n) - (a' + 2 ^ n)).natAbs
            ((b + 2 ^ n) - (b' + 2 ^ n)).natAbs = 1
          rw [show (a + 2 ^ n) - (a' + 2 ^ n) = a - a' from by ring,
            show (b + 2 ^ n) - (b' + 2 ^ n) = b - b' from by ring]
          exact hIH
        · show chebyshev (i2pStep 3 (2 ^ n) (a, b))
            (i2pStep 3 (2 ^ n) (a', b')) = 1
          have h1 : i2pStep 3 (2 ^ n) (a, b) =
              (2 ^ n - 1 - b + 2 ^ n, 2 ^ n - 1 - a) := by
            simp only [i2pStep, hilbert_rotate]; norm_num
          have h2 : i2pStep 3 (2 ^ n) (a', b') =
              (2 ^ n - 1 - b' + 2 ^ n, 2 ^ n - 1 - a') := by
            simp only [i2pStep, hilbert_rotate]; norm_num
          rw [h1, h2]
          show max ((2 ^ n - 1 - b + 2 ^ n) - (2 ^ n - 1 - b' + 2 ^ n)).natAbs
            ((2 ^ n - 1 - a) - (2 ^ n - 1 - a')).natAbs = 1
          rw [show (2 ^ n - 1 - b + 2 ^ n) - (2 ^ n - 1 - b' + 2 ^ n) =
              -(b - b') from by ring,
            show (2 ^ n - 1 - a) - (2 ^ n - 1 - a') = -(a - a') from by ring,
            Int.natAbs_neg, Int.natAbs_neg, Nat.max_comm]
          exact hIH
      · -- crossing a top-level quadrant boundary
        have hreq : t % 4 ^ n = 4 ^ n - 1 := by omega
        have ht1' : t + 1 = 4 ^ n * (d + 1) := by rw [htd, hreq]; ring
        have hd2 : (t + 1) / 4 ^ n = d + 1 := by
          rw [ht1', Int.mul_ediv_cancel_left _ hpos4.ne']
        have hr2 : (t + 1) % 4 ^ n = 0 := by
          rw [ht1', Int.mul_emod_right]
        rw [i2pE_succ_decomp n t, i2pE_succ_decomp n (t + 1), hd, hd2, hr2,
          hreq, i2pE_last n, i2pE_zero n]
        interval_cases d
        · have h1 : i2pStep 0 (2 ^ n) (2 ^ n - 1, 0) = (0, 2 ^ n - 1) := by
            simp [i2pStep, hilbert_rotate]
          have h2 : i2pStep (0 + 1) (2 ^ n) (0, 0) = ((0 : Int), 2 ^ n) := by
            simp only [i2pStep, hilbert_rotate]; norm_num
          rw [h1, h2]
          show max ((0 : Int) - 0).natAbs (((2 : Int) ^ n - 1) - 2 ^ n).natAbs = 1
          rw [show ((0 : Int) - 0) = 0 from by ring,
            show (2 ^ n - 1) - 2 ^ n = (-1 : Int) from by ring]
          rfl
        · have h1 : i2pStep 1 (2 ^ n) (2 ^ n - 1, 0) =
              (2 ^ n - 1, 2 ^ n) := by
            simp only [i2pStep, hilbert_rotate]; norm_num
          have h2 : i2pStep (1 + 1) (2 ^ n) (0, 0) = ((2 : Int) ^ n, 2 ^ n) := by
            simp only [i2pStep, hilbert_rotate]; norm_num
          rw [h1, h2]
          show max (((2 : Int) ^ n - 1) - 2 ^ n).natAbs ((2 ^ n : Int) - 2 ^ n).natAbs = 1
          rw [show (2 ^ n - 1) - 2 ^ n = (-1 : Int) from by ring,
            show ((2 ^ n : Int) - 2 ^ n) = 0 from by ring]
          rfl
        · have h1 : i2pStep 2 (2 ^ n) (2 ^ n - 1, 0) =
              (2 ^ n - 1 + 2 ^ n, 2 ^ n) := by
            simp only [i2pStep, hilbert_rotate]; norm_num
          have h2 : i2pStep (2 + 1) (2 ^ n) (0, 0) =
              (2 ^ n - 1 - 0 + 2 ^ n, 2 ^ n - 1 - 0) := by
            simp only [i2pStep, hilbert_rotate]; norm_num
          rw [h1, h2]
          show max (((2 : Int) ^ n - 1 + 2 ^ n) - (2 ^ n - 1 - 0 + 2 ^ n)).natAbs
            ((2 ^ n : Int) - (2 ^ n - 1 - 0)).natAbs = 1
          rw [show (2 ^ n - 1 + 2 ^ n) - (2 ^ n - 1 - 0 + 2 ^ n) = (0 : Int)
              from by ring,
            show ((2 ^ n : Int) - (2 ^ n - 1 - 0)) = 1 from by ring]
          rfl
        · exfalso
          omega

/-! ## The grid-inverting dictionary -/

/-- The value bound to key `k` by the LAST matching entry of an entry list
(later entries shadow earlier ones, as successive dict assignments do). -/
def lastOccurrence (k : Int) : List (Int × Nat × Nat) → Option (Nat × Nat)
  | [] => none
  | e :: l =>
    match lastOccurrence k l with
    | some p => some p
    | none => if e.1 = k then some e.2 else none

/-- Folding dict assignments over an entry list looks up the last binding. -/
theorem dict_foldl_lookup : ∀ (l : List (Int × Nat × Nat))
    (m0 : Int → Option (Nat × Nat)) (k : Int),
    (l.foldl (fun m e => dictInsert m e.1 e.2) m0) k =
      (lastOccurrence k l).or (m0 k) := by
  intro l
  induction l with
  | nil => intro m0 k; rfl
  | cons e l ih =>
      intro m0 k
      show (l.foldl (fun m e => dictInsert m e.1 e.2)
        (dictInsert m0 e.1 e.2)) k = _
      rw [ih]
      rcases h : lastOccurrence k l with _ | p
      · by_cases he : e.1 = k
        · have hlast : lastOccurrence k (e :: l) = some e.2 := by
            show (match lastOccurrence k l with
              | some p => some p
              | none => if e.1 = k then some e.2 else none) = some e.2
            rw [h, if_pos he]
          rw [hlast, Option.none_or, Option.or_some]
          show dictInsert m0 e.1 e.2 k = some e.2
          unfold dictInsert
          rw [if_pos he.symm]
        · have hlast : lastOccurrence k (e :: l) = none := by
            show (match lastOccurrence k l with
              | some p => some p
              | none => if e.1 = k then some e.2 else none) = none
            rw [h, if_neg he]
          rw [hlast, Option.none_or, Option.none_or]
          show dictInsert m0 e.1 e.2 k = m0 k
          unfold dictInsert
          rw [if_neg (fun hk => he hk.symm)]
      · have hlast : lastOccurrence k (e :: l) = some p := by
          show (match lastOccurrence k l with
            | some p => some p
            | none => if e.1 = k then some e.2 else none) = some p
          rw [h]
        rw [hlast, Option.or_some, Option.or_some]

/-- The dict built by `hilbert_curve_to_coordinates` is exactly the
last-binding lookup over the scan-order entries. -/
theorem hilbert_curve_to_coordinates_lookup (grid : List (List Int)) (k : Int) :
    hilbert_curve_to_coordinates grid k =
      lastOccurrence k (gridEntriesFrom 0 grid) := by
  show (gridEntriesFrom 0 grid).foldl (fun m e => dictInsert m e.1 e.2)
    (fun _ => none) k = _
  rw [dict_foldl_lookup, Option.or_none]

/-- Index of the last occurrence of value `v` in a row. -/
def lastIndexOfRow (v : Int) : List Int → Option Nat
  | [] => none
  | w :: ws =>
    match lastIndexOfRow v ws with
    | some j => some (j + 1)
    | none => if w = v then some 0 else none

theorem lastOccurrence_rowEntries : ∀ (row : List Int) (x0 y0 : Nat) (v : Int),
    lastOccurrence v (rowEntriesFrom x0 y0 row) =
      (lastIndexOfRow v row).map (fun j => (x0, y0 + j)) := by
  intro row
  induction row with
  | nil => intro x0 y0 v; rfl
  | cons w ws ih =>
      intro x0 y0 v
      have hrec : lastIndexOfRow v (w :: ws) =
          (match lastIndexOfRow v ws with
            | some j => some (j + 1)
            | none => if w = v then some 0 else none) := rfl
      have hlo : lastOccurrence v (rowEntriesFrom x0 y0 (w :: ws)) =
          (match lastOccurrence v (rowEntriesFrom x0 (y0 + 1) ws) with
            | some p => some p
            | none => if w = v then some (x0, y0) else none) := rfl
      rw [hlo, ih x0 (y0 + 1) v, hrec]
      rcases h : lastIndexOfRow v ws with _ | j
      · by_cases he : w = v
        · simp [he]
        · simp [he]
      · simp only [Option.map_some']
        show some (x0, y0 + 1 + j) = some (x0, y0 + (j + 1))
        rw [show y0 + 1 + j = y0 + (j + 1) from by omega]

theorem lastIndexOfRow_none : ∀ (row : List Int) (v : Int),
    lastIndexOfRow v row = none ↔ ∀ j : Nat, row[j]? ≠ some v := by
  intro row
  induction row with
  | nil =>
      intro v
      simp [lastIndexOfRow]
  | cons w ws ih =>
      intro v
      constructor
      · intro h j
        have hm : (match lastIndexOfRow v ws with
            | some j => some (j + 1)
            | none => if w = v then some 0 else none) = none := h
        rcases h2 : lastIndexOfRow v ws with _ | j'
        · rw [h2] at hm
          cases j with
          | zero =>
              rw [List.getElem?_cons_zero]
              intro hc
              rw [if_pos (Option.some.inj hc)] at hm
              exact Option.noConfusion hm
          | succ j' =>
              rw [List.getElem?_cons_succ]
              exact (ih v).mp h2 j'
        · rw [h2] at hm
          exact Option.noConfusion hm
      · intro h
        show (match lastIndexOfRow v ws with
          | some j => some (j + 1)
          | none => if w = v then some 0 else none) = none
        have h2 : lastIndexOfRow v ws = none := by
          rw [ih]
          intro j
          have := h (j + 1)
          rwa [List.getElem?_cons_succ] at this
        rw [h2, if_neg]
        intro he
        have := h 0
        rw [List.getElem?_cons_zero] at this
        exact this (by rw [he])

theorem lastIndexOfRow_some : ∀ (row : List Int) (v : Int) (j : Nat),
    lastIndexOfRow v row = some j ↔
      row[j]? = some v ∧ ∀ j' : Nat, j < j' → row[j']? ≠ some v := by
  intro row
  induction row with
  | nil =>
      intro v j
      simp [lastIndexOfRow]
  | cons w ws ih =>
      intro v j
      constructor
      · intro h
        have hm : (match lastIndexOfRow v ws with
            | some j => some (j + 1)
            | none => if w = v then some 0 else none) = some j := h
        rcases h2 : lastIndexOfRow v ws with _ | j''
        · rw [h2] at hm
          by_cases he : w = v
          · rw [if_pos he] at hm
            have hj : j = 0 := (Option.some.inj hm).symm
            subst hj
            refine ⟨by rw [List.getElem?_cons_zero, he], ?_⟩
            intro j' hj'
            cases j' with
            | zero => omega
            | succ j'' =>
                rw [List.getElem?_cons_succ]
                exact (lastIndexOfRow_none ws v).mp h2 j''
          · rw [if_neg he] at hm
            exact Option.noConfusion hm
        · rw [h2] at hm
          have hj : j = j'' + 1 := (Option.some.inj hm).symm
          subst hj
          obtain ⟨hocc, hmax⟩ := (ih v j'').mp h2
          refine ⟨by rwa [List.getElem?_cons_succ], ?_⟩
          intro j' hj'
          cases j' with
          | zero => omega
          | succ j''' =>
              rw [List.getElem?_cons_succ]
              exact hmax j''' (by omega)
      · intro ⟨hocc, hmax⟩
        show (match lastIndexOfRow v ws with
          | some j => some (j + 1)
          | none => if w = v then some 0 else none) = some j
        cases j with
        | zero =>
            rw [List.getElem?_cons_zero] at hocc
            have h2 : lastIndexOfRow v ws = none := by
              rw [lastIndexOfRow_none]
              intro j'
              have := hmax (j' + 1) (by omega)
              rwa [List.getElem?_cons_succ] at this
            rw [h2, if_pos (Option.some.inj hocc)]
        | succ j'' =>
            rw [List.getElem?_cons_succ] at hocc
            have h2 : lastIndexOfRow v ws = some j'' := by
              rw [ih]
              refine ⟨hocc, ?_⟩
              intro j' hj'
              have := hmax (j' + 1) (by omega)
              rwa [List.getElem?_cons_succ] at this
            rw [h2]

/-- Value `v` occurs in the grid at first-dimension position `x` and
second-dimension position `y`. -/
def occursAt (grid : List (List Int)) (v : Int) (x y : Nat) : Prop :=
  ∃ row, grid[x]? = some row ∧ row[y]? = some v

/-- Row-major (lexicographic) comparison of grid positions. -/
def lexLE (p q : Nat × Nat) : Prop :=
  p.1 < q.1 ∨ (p.1 = q.1 ∧ p.2 ≤ q.2)

theorem occursAt_lt_length {grid : List (List Int)} {v : Int} {x y : Nat}
    (h : occursAt grid v x y) : x < grid.length := by
  obtain ⟨row, h1, _⟩ := h
  exact (List.getElem?_eq_some.mp h1).choose

theorem occursAt_append_singleton (g : List (List Int)) (r : List Int)
    (v : Int) (x y : Nat) :
    occursAt (g ++ [r]) v x y ↔
      occursAt g v x y ∨ (x = g.length ∧ r[y]? = some v) := by
  unfold occursAt
  constructor
  · rintro ⟨row, h1, h2⟩
    rw [List.getElem?_append] at h1
    by_cases hx : x < g.length
    · rw [if_pos hx] at h1
      exact Or.inl ⟨row, h1, h2⟩
    · rw [if_neg hx] at h1
      rcases Nat.lt_or_ge (x - g.length) 1 with hlt | hge
      · have hx0 : x - g.length = 0 := by omega
        rw [hx0, List.getElem?_cons_zero] at h1
        have hrow : row = r := (Option.some.inj h1).symm
        subst hrow
        right
        exact ⟨by omega, h2⟩
      · exfalso
        have : ([r] : List (List Int))[x - g.length]? = none := by
          rw [List.getElem?_eq_none]
          simpa using hge
        rw [this] at h1
        exact Option.noConfusion h1
  · rintro (⟨row, h1, h2⟩ | ⟨hx, h2⟩)
    · refine ⟨row, ?_, h2⟩
      rw [List.getElem?_append,
        if_pos ((List.getElem?_eq_some.mp h1).choose)]
      exact h1
    · refine ⟨r, ?_, h2⟩
      subst hx
      exact List.getElem?_concat_length g r

theorem gridEntriesFrom_append : ∀ (rs : List (List Int)) (x0 : Nat)
    (r : List Int),
    gridEntriesFrom x0 (rs ++ [r]) =
      gridEntriesFrom x0 rs ++ rowEntriesFrom (x0 + rs.length) 0 r := by
  intro rs
  induction rs with
  | nil =>
      intro x0 r
      show rowEntriesFrom x0 0 r ++ [] = [] ++ rowEntriesFrom (x0 + 0) 0 r
      rw [List.append_nil, List.nil_append, Nat.add_zero]
  | cons r' rs ih =>
      intro x0 r
      show rowEntriesFrom x0 0 r' ++ gridEntriesFrom (x0 + 1) (rs ++ [r]) =
        (rowEntriesFrom x0 0 r' ++ gridEntriesFrom (x0 + 1) rs) ++
          rowEntriesFrom (x0 + (rs.length + 1)) 0 r
      rw [ih, List.append_assoc,
        show x0 + 1 + rs.length = x0 + (rs.length + 1) from by omega]

theorem lastOccurrence_append : ∀ (l1 l2 : List (Int × Nat × Nat)) (k : Int),
    lastOccurrence k (l1 ++ l2) =
      (lastOccurrence k l2).or (lastOccurrence k l1) := by
  intro l1
  induction l1 with
  | nil =>
      intro l2 k
      show lastOccurrence k l2 = (lastOccurrence k l2).or none
      rw [Option.or_none]
  | cons e l1 ih =>
      intro l2 k
      show (match lastOccurrence k (l1 ++ l2) with
        | some p => some p
        | none => if e.1 = k then some e.2 else none) = _
      rw [ih]
      rcases h2 : lastOccurrence k l2 with _ | p
      · rw [Option.none_or, Option.none_or]
        rfl
      · rw [Option.or_some, Option.or_some]

/-- The dict maps `v` to nothing exactly when `v` never occurs. -/
theorem lastOccurrence_grid_none : ∀ (grid : List (List Int)) (v : Int),
    lastOccurrence v (gridEntriesFrom 0 grid) = none ↔
      ∀ x y : Nat, ¬occursAt grid v x y := by
  intro grid
  induction grid using List.reverseRecOn with
  | nil =>
      intro v
      constructor
      · intro _ x y hocc
        obtain ⟨row, h1, _⟩ := hocc
        simp at h1
      · intro _; rfl
  | append_singleton g r ih =>
      intro v
      rw [gridEntriesFrom_append, lastOccurrence_append,
        lastOccurrence_rowEntries r (0 + g.length) 0 v]
      constructor
      · intro h x y hocc
        rcases hor : (lastIndexOfRow v r) with _ | j
        · rw [hor] at h
          simp only [Option.map_none', Option.none_or] at h
          rcases (occursAt_append_singleton g r v x y).mp hocc with h1 | ⟨_, h2⟩
          · exact ((ih v).mp h) x y h1
          · exact (lastIndexOfRow_none r v).mp hor y h2
        · rw [hor] at h
          simp only [Option.map_some', Option.or_some] at h
          exact Option.noConfusion h
      · intro h
        have hrow : lastIndexOfRow v r = none := by
          rw [lastIndexOfRow_none]
          intro j hc
          exact h g.length j
            ((occursAt_append_singleton g r v g.length j).mpr
              (Or.inr ⟨rfl, hc⟩))
        rw [hrow]
        simp only [Option.map_none', Option.none_or]
        rw [ih]
        intro x y hocc
        exact h x y ((occursAt_append_singleton g r v x y).mpr (Or.inl hocc))

/-- The dict maps `v` to exactly the last-in-scan-order occurrence. -/
theorem lastOccurrence_grid_some : ∀ (grid : List (List Int)) (v : Int)
    (x y : Nat),
    lastOccurrence v (gridEntriesFrom 0 grid) = some (x, y) ↔
      occursAt grid v x y ∧
        ∀ x' y' : Nat, occursAt grid v x' y' → lexLE (x', y') (x, y) := by
  intro grid
  induction grid using List.reverseRecOn with
  | nil =>
      intro v x y
      constructor
      · intro h
        exact Option.noConfusion h
      · rintro ⟨⟨row, h1, _⟩, _⟩
        simp at h1
  | append_singleton g r ih =>
      intro v x y
      rw [gridEntriesFrom_append, lastOccurrence_append,
        lastOccurrence_rowEntries r (0 + g.length) 0 v]
      rcases hor : (lastIndexOfRow v r) with _ | j
      · -- v does not occur in the appended row
        simp only [Option.map_none', Option.none_or]
        have hnor : ∀ j : Nat, r[j]? ≠ some v := (lastIndexOfRow_none r v).mp hor
        rw [ih v x y]
        constructor
        · rintro ⟨hocc, hmax⟩
          refine ⟨(occursAt_append_singleton g r v x y).mpr (Or.inl hocc), ?_⟩
          intro x' y' hocc'
          rcases (occursAt_append_singleton g r v x' y').mp hocc' with h1 | ⟨_, h2⟩
          · exact hmax x' y' h1
          · exact absurd h2 (hnor y')
        · rintro ⟨hocc, hmax⟩
          rcases (occursAt_append_singleton g r v x y).mp hocc with h1 | ⟨_, h2⟩
          · refine ⟨h1, ?_⟩
            intro x' y' hocc'
            exact hmax x' y'
              ((occursAt_append_singleton g r v x' y').mpr (Or.inl hocc'))
          · exact absurd h2 (hnor y)
      · -- the last occurrence in the appended row is at column j
        simp only [Option.map_some', Option.or_some, Nat.zero_add]
        obtain ⟨hoccj, hmaxj⟩ := (lastIndexOfRow_some r v j).mp hor
        constructor
        · intro h
          obtain ⟨hx, hy⟩ : g.length = x ∧ j = y := by
            have := Option.some.inj h
            exact ⟨congrArg Prod.fst this, congrArg Prod.snd this⟩
          subst hx
          subst hy
          refine ⟨(occursAt_append_singleton g r v g.length j).mpr
            (Or.inr ⟨rfl, hoccj⟩), ?_⟩
          intro x' y' hocc'
          rcases (occursAt_append_singleton g r v x' y').mp hocc' with h1 | ⟨hx', h2⟩
          · exact Or.inl (occursAt_lt_length h1)
          · right
            refine ⟨hx', ?_⟩
            by_contra hcon
            exact hmaxj y' (by omega) h2
        · rintro ⟨hocc, hmax⟩
          have hj : occursAt (g ++ [r]) v g.length j :=
            (occursAt_append_singleton g r v g.length j).mpr
              (Or.inr ⟨rfl, hoccj⟩)
          have hle := hmax g.length j hj
          rcases (occursAt_append_singleton g r v x y).mp hocc with h1 | ⟨hx, h2⟩
          · exfalso
            have hxlt : x < g.length := occursAt_lt_length h1
            rcases hle with h | ⟨h, _⟩ <;> omega
          · subst hx
            have hyj : y ≤ j := by
              by_contra hcon
              exact hmaxj y (by omega) h2
            have hjy : j ≤ y := by
              rcases hle with h | ⟨_, h⟩
              · omega
              · exact h
            have : y = j := by omega
            rw [this]

/-! ## Source-level characterisations -/

theorem cast_lt_four_pow {i : Nat} {n : Nat} (h : i < 4 ^ n) :
    (i : Int) < 4 ^ n := by
  exact_mod_cast h

theorem cast_lt_two_pow {i : Nat} {n : Nat} (h : i < 2 ^ n) :
    (i : Int) < 2 ^ n := by
  exact_mod_cast h

theorem hilbert_roundtrip_forward (n : Nat) (t : Int)
    (h0 : 0 ≤ t) (h1 : t < 4 ^ n) :
    point_to_hilbert_index (hilbert_index_to_point (n : Int) t).1
      (hilbert_index_to_point (n : Int) t).2 (n : Int) = t := by
  rw [hilbert_index_to_point_as_E, point_to_hilbert_index_as_E]
  exact (i2pE_bounds_inverse n t h0 h1).2.2.2.2

theorem hilbert_index_to_point_mem_grid (n : Nat) (t : Int)
    (h0 : 0 ≤ t) (h1 : t < 4 ^ n) :
    0 ≤ (hilbert_index_to_point (n : Int) t).1 ∧
      (hilbert_index_to_point (n : Int) t).1 < 2 ^ n ∧
      0 ≤ (hilbert_index_to_point (n : Int) t).2 ∧
      (hilbert_index_to_point (n : Int) t).2 < 2 ^ n := by
  rw [hilbert_index_to_point_as_E]
  obtain ⟨a, b, c, d, _⟩ := i2pE_bounds_inverse n t h0 h1
  exact ⟨a, b, c, d⟩

theorem hilbert_roundtrip_backward (n : Nat) (x y : Int)
    (hx0 : 0 ≤ x) (hx1 : x < 2 ^ n) (hy0 : 0 ≤ y) (hy1 : y < 2 ^ n) :
    hilbert_index_to_point (n : Int) (point_to_hilbert_index x y (n : Int)) =
      (x, y) := by
  rw [hilbert_index_to_point_as_E, point_to_hilbert_index_as_E]
  exact (p2iE_bounds_inverse n x y hx0 hx1 hy0 hy1).2.2

theorem point_to_hilbert_index_range (n : Nat) (x y : Int)
    (hx0 : 0 ≤ x) (hx1 : x < 2 ^ n) (hy0 : 0 ≤ y) (hy1 : y < 2 ^ n) :
    0 ≤ point_to_hilbert_index x y (n : Int) ∧
      point_to_hilbert_index x y (n : Int) < 4 ^ n := by
  rw [point_to_hilbert_index_as_E]
  obtain ⟨a, b, _⟩ := p2iE_bounds_inverse n x y hx0 hx1 hy0 hy1
  exact ⟨a, b⟩

theorem generate_length (n : Nat) :
    (generate_hilbert_points n).length = 4 ^ n := by
  unfold generate_hilbert_points
  rw [List.length_map, List.length_range, pow_mul]
  norm_num

theorem four_pow_as_two_pow (n : Nat) : (4 : Nat) ^ n = 2 ^ (2 * n) := by
  rw [pow_mul]; norm_num

theorem generate_getElem (n i : Nat) (h : i < 4 ^ n) :
    (generate_hilbert_points n)[i]? =
      some (hilbert_index_to_point (n : Int) (i : Int)) := by
  unfold generate_hilbert_points
  rw [List.getElem?_map, List.getElem?_range (by rwa [← four_pow_as_two_pow])]
  rfl

theorem generate_nodup (n : Nat) : (generate_hilbert_points n).Nodup := by
  unfold generate_hilbert_points
  refine List.Nodup.map_on ?_ (List.nodup_range _)
  intro i hi j hj hij
  rw [List.mem_range, ← four_pow_as_two_pow] at hi hj
  rw [hilbert_index_to_point_as_E, hilbert_index_to_point_as_E] at hij
  have := i2pE_injOn n (i : Int) (j : Int) (by positivity)
    (cast_lt_four_pow hi) (by positivity) (cast_lt_four_pow hj) hij
  exact_mod_cast this

theorem generate_toFinset (n : Nat) :
    (generate_hilbert_points n).toFinset = gridFinset n := by
  apply Finset.ext
  intro p
  rw [List.mem_toFinset, mem_gridFinset]
  unfold generate_hilbert_points
  rw [List.mem_map]
  constructor
  · rintro ⟨i, hi, hip⟩
    rw [List.mem_range, ← four_pow_as_two_pow] at hi
    rw [← hip]
    exact hilbert_index_to_point_mem_grid n i (by positivity)
      (cast_lt_four_pow hi)
  · rintro ⟨h1, h2, h3, h4⟩
    obtain ⟨t, ht0, ht1, htp⟩ := i2pE_surjOn n p.1 p.2 h1 h2 h3 h4
    refine ⟨t.toNat, ?_, ?_⟩
    · rw [List.mem_range, ← four_pow_as_two_pow]
      have h5 : ((t.toNat : Int)) = t := Int.toNat_of_nonneg ht0
      have h6 : ((4 ^ n : Nat) : Int) = (4 : Int) ^ n := by push_cast; ring
      have : (t.toNat : Int) < ((4 ^ n : Nat) : Int) := by rw [h5, h6]; exact ht1
      exact_mod_cast this
    · rw [hilbert_index_to_point_as_E, Int.toNat_of_nonneg ht0, htp]

theorem matrix_length (n : Nat) :
    (hilbert_index_matrix n).length = 2 ^ n := by
  unfold hilbert_index_matrix
  rw [List.length_map, List.length_range]

theorem matrix_getElem_row (n x : Nat) (hx : x < 2 ^ n) :
    (hilbert_index_matrix n)[x]? =
      some ((List.range (2 ^ n)).map fun y : Nat =>
        point_to_hilbert_index (x : Int) (y : Int) (n : Int)) := by
  unfold hilbert_index_matrix
  rw [List.getElem?_map, List.getElem?_range hx]
  rfl

theorem matrix_cell (n x y : Nat) (hx : x < 2 ^ n) (hy : y < 2 ^ n) :
    ((hilbert_index_matrix n)[x]?.bind fun row => row[y]?) =
      some (point_to_hilbert_index (x : Int) (y : Int) (n : Int)) := by
  rw [matrix_getElem_row n x hx]
  show ((List.range (2 ^ n)).map fun y : Nat =>
    point_to_hilbert_index (x : Int) (y : Int) (n : Int))[y]? = _
  rw [List.getElem?_map, List.getElem?_range hy]
  rfl

theorem occursAt_matrix (n : Nat) (v : Int) (x y : Nat) :
    occursAt (hilbert_index_matrix n) v x y ↔
      x < 2 ^ n ∧ y < 2 ^ n ∧
        point_to_hilbert_index (x : Int) (y : Int) (n : Int) = v := by
  constructor
  · rintro ⟨row, h1, h2⟩
    have hx : x < 2 ^ n := by
      have := (List.getElem?_eq_some.mp h1).choose
      rwa [matrix_length] at this
    rw [matrix_getElem_row n x hx] at h1
    have hrow := Option.some.inj h1
    subst hrow
    have hy : y < 2 ^ n := by
      have := (List.getElem?_eq_some.mp h2).choose
      rwa [List.length_map, List.length_range] at this
    rw [List.getElem?_map, List.getElem?_range hy] at h2
    exact ⟨hx, hy, Option.some.inj h2⟩
  · rintro ⟨hx, hy, hv⟩
    refine ⟨(List.range (2 ^ n)).map fun y : Nat =>
      point_to_hilbert_index (x : Int) (y : Int) (n : Int),
      matrix_getElem_row n x hx, ?_⟩
    rw [List.getElem?_map, List.getElem?_range hy]
    simp only [Option.map_some']
    rw [hv]

/-- Injectivity of `point_to_hilbert_index` on grid coordinates. -/
theorem point_to_hilbert_index_injOn (n : Nat) (x y x' y' : Nat)
    (hx : x < 2 ^ n) (hy : y < 2 ^ n) (hx' : x' < 2 ^ n) (hy' : y' < 2 ^ n)
    (h : point_to_hilbert_index (x : Int) (y : Int) (n : Int) =
      point_to_hilbert_index (x' : Int) (y' : Int) (n : Int)) :
    x = x' ∧ y = y' := by
  have h1 := hilbert_roundtrip_backward n x y (by positivity)
    (cast_lt_two_pow hx) (by positivity) (cast_lt_two_pow hy)
  have h2 := hilbert_roundtrip_backward n x' y' (by positivity)
    (cast_lt_two_pow hx') (by positivity) (cast_lt_two_pow hy')
  rw [h] at h1
  rw [h1] at h2
  have hfst : ((x : Int), (y : Int)).1 = ((x' : Int), (y' : Int)).1 :=
    congrArg Prod.fst h2
  have hsnd : ((x : Int), (y : Int)).2 = ((x' : Int), (y' : Int)).2 :=
    congrArg Prod.snd h2
  simp only at hfst hsnd
  exact ⟨by exact_mod_cast hfst, by exact_mod_cast hsnd⟩

theorem matrix_flatten_nodup (n : Nat) :
    (hilbert_index_matrix n).flatten.Nodup := by
  rw [List.nodup_flatten]
  constructor
  · intro l hl
    unfold hilbert_index_matrix at hl
    rw [List.mem_map] at hl
    obtain ⟨x, hx, rfl⟩ := hl
    rw [List.mem_range] at hx
    refine List.Nodup.map_on ?_ (List.nodup_range _)
    intro y hy y' hy' hyy
    rw [List.mem_range] at hy hy'
    exact (point_to_hilbert_index_injOn n x y x y' hx hy hx hy' hyy).2
  · unfold hilbert_index_matrix
    rw [List.pairwise_map]
    refine List.Pairwise.imp_of_mem ?_ (List.pairwise_lt_range _)
    intro x x' hxm hxm' hlt
    rw [List.mem_range] at hxm hxm'
    intro v hv hv'
    rw [List.mem_map] at hv hv'
    obtain ⟨y, hy, hvy⟩ := hv
    obtain ⟨y', hy', hvy'⟩ := hv'
    rw [List.mem_range] at hy hy'
    have := (point_to_hilbert_index_injOn n x y x' y' hxm hy hxm' hy'
      (by rw [hvy, hvy'])).1
    omega

theorem matrix_flatten_toFinset (n : Nat) :
    (hilbert_index_matrix n).flatten.toFinset =
      ((List.range (4 ^ n)).map fun i : Nat => (i : Int)).toFinset := by
  apply Finset.ext
  intro v
  rw [List.mem_toFinset, List.mem_toFinset, List.mem_flatten, List.mem_map]
  constructor
  · rintro ⟨l, hl, hv⟩
    unfold hilbert_index_matrix at hl
    rw [List.mem_map] at hl
    obtain ⟨x, hx, rfl⟩ := hl
    rw [List.mem_range] at hx
    rw [List.mem_map] at hv
    obtain ⟨y, hy, hvy⟩ := hv
    rw [List.mem_range] at hy
    obtain ⟨h0, h1⟩ := point_to_hilbert_index_range n x y (by positivity)
      (cast_lt_two_pow hx) (by positivity) (cast_lt_two_pow hy)
    rw [hvy] at h0 h1
    refine ⟨v.toNat, ?_, Int.toNat_of_nonneg h0⟩
    rw [List.mem_range]
    have h2 : ((v.toNat : Int)) = v := Int.toNat_of_nonneg h0
    have h3 : ((4 ^ n : Nat) : Int) = (4 : Int) ^ n := by push_cast; ring
    have : (v.toNat : Int) < ((4 ^ n : Nat) : Int) := by rw [h2, h3]; exact h1
    exact_mod_cast this
  · rintro ⟨i, hi, rfl⟩
    rw [List.mem_range] at hi
    obtain ⟨ha0, ha1, hb0, hb1⟩ :=
      hilbert_index_to_point_mem_grid n (i : Int) (by positivity)
        (cast_lt_four_pow hi)
    have hfwd := hilbert_roundtrip_forward n (i : Int) (by positivity)
      (cast_lt_four_pow hi)
    refine ⟨(List.range (2 ^ n)).map fun y : Nat =>
      point_to_hilbert_index
        ((hilbert_index_to_point (n : Int) (i : Int)).1.toNat : Int)
        (y : Int) (n : Int), ?_, ?_⟩
    · unfold hilbert_index_matrix
      rw [List.mem_map]
      refine ⟨(hilbert_index_to_point (n : Int) (i : Int)).1.toNat, ?_, rfl⟩
      rw [List.mem_range]
      have h2 : (((hilbert_index_to_point (n : Int) (i : Int)).1.toNat : Int)) =
          (hilbert_index_to_point (n : Int) (i : Int)).1 :=
        Int.toNat_of_nonneg ha0
      have h3 : ((2 ^ n : Nat) : Int) = (2 : Int) ^ n := by push_cast; ring
      have : (((hilbert_index_to_point (n : Int) (i : Int)).1.toNat : Int)) <
          ((2 ^ n : Nat) : Int) := by rw [h2, h3]; exact ha1
      exact_mod_cast this
    · rw [List.mem_map]
      refine ⟨(hilbert_index_to_point (n : Int) (i : Int)).2.toNat, ?_, ?_⟩
      · rw [List.mem_range]
        have h2 : (((hilbert_index_to_point (n : Int) (i : Int)).2.toNat : Int)) =
            (hilbert_index_to_point (n : Int) (i : Int)).2 :=
          Int.toNat_of_nonneg hb0
        have h3 : ((2 ^ n : Nat) : Int) = (2 : Int) ^ n := by push_cast; ring
        have : (((hilbert_index_to_point (n : Int) (i : Int)).2.toNat : Int)) <
            ((2 ^ n : Nat) : Int) := by rw [h2, h3]; exact hb1
        exact_mod_cast this
      · rw [Int.toNat_of_nonneg ha0, Int.toNat_of_nonneg hb0]
        exact hfwd

theorem range_cast_nodup (n : Nat) :
    ((List.range (4 ^ n)).map fun i : Nat => (i : Int)).Nodup := by
  refine List.Nodup.map_on ?_ (List.nodup_range _)
  intro i _ j _ h
  exact_mod_cast h

/-- The cell values of the index matrix are a permutation of `0 .. 4^n - 1`. -/
theorem matrix_flatten_perm (n : Nat) :
    (hilbert_index_matrix n).flatten.Perm
      ((List.range (4 ^ n)).map fun i : Nat => (i : Int)) :=
  List.perm_of_nodup_nodup_toFinset_eq (matrix_flatten_nodup n)
    (range_cast_nodup n) (matrix_flatten_toFinset n)

/-- Looking up index `i` in the dict built from the index matrix yields the
(coordinates of) the forward map at `i`. -/
theorem dict_matrix_lookup (n : Nat) (i : Nat) (h : i < 4 ^ n) :
    hilbert_curve_to_coordinates (hilbert_index_matrix n) (i : Int) =
      some ((hilbert_index_to_point (n : Int) (i : Int)).1.toNat,
        (hilbert_index_to_point (n : Int) (i : Int)).2.toNat) := by
  obtain ⟨ha0, ha1, hb0, hb1⟩ :=
    hilbert_index_to_point_mem_grid n (i : Int) (by positivity)
      (cast_lt_four_pow h)
  have hfwd := hilbert_roundtrip_forward n (i : Int) (by positivity)
    (cast_lt_four_pow h)
  have hx : (((hilbert_index_to_point (n : Int) (i : Int)).1.toNat : Int)) =
      (hilbert_index_to_point (n : Int) (i : Int)).1 :=
    Int.toNat_of_nonneg ha0
  have hy : (((hilbert_index_to_point (n : Int) (i : Int)).2.toNat : Int)) =
      (hilbert_index_to_point (n : Int) (i : Int)).2 :=
    Int.toNat_of_nonneg hb0
  have hxlt : (hilbert_index_to_point (n : Int) (i : Int)).1.toNat < 2 ^ n := by
    have h3 : ((2 ^ n : Nat) : Int) = (2 : Int) ^ n := by push_cast; ring
    have : (((hilbert_index_to_point (n : Int) (i : Int)).1.toNat : Int)) <
        ((2 ^ n : Nat) : Int) := by rw [hx, h3]; exact ha1
    exact_mod_cast this
  have hylt : (hilbert_index_to_point (n : Int) (i : Int)).2.toNat < 2 ^ n := by
    have h3 : ((2 ^ n : Nat) : Int) = (2 : Int) ^ n := by push_cast; ring
    have : (((hilbert_index_to_point (n : Int) (i : Int)).2.toNat : Int)) <
        ((2 ^ n : Nat) : Int) := by rw [hy, h3]; exact hb1
    exact_mod_cast this
  rw [hilbert_curve_to_coordinates_lookup]
  rw [lastOccurrence_grid_some]
  constructor
  · rw [occursAt_matrix]
    refine ⟨hxlt, hylt, ?_⟩
    rw [hx, hy]
    exact hfwd
  · intro x' y' hocc
    obtain ⟨hx', hy', hv'⟩ := (occursAt_matrix n (i : Int) x' y').mp hocc
    have heq : point_to_hilbert_index (x' : Int) (y' : Int) (n : Int) =
        point_to_hilbert_index
          (((hilbert_index_to_point (n : Int) (i : Int)).1.toNat : Int))
          (((hilbert_index_to_point (n : Int) (i : Int)).2.toNat : Int))
          (n : Int) := by
      rw [hx, hy, hfwd, hv']
    obtain ⟨he1, he2⟩ := point_to_hilbert_index_injOn n x' y' _ _
      hx' hy' hxlt hylt heq
    right
    exact ⟨he1, le_of_eq he2⟩

/-- The dict built from the index matrix is defined exactly on `[0, 4^n)`. -/
theorem dict_matrix_isSome (n : Nat) (v : Int) :
    (hilbert_curve_to_coordinates (hilbert_index_matrix n) v).isSome ↔
      0 ≤ v ∧ v < 4 ^ n := by
  constructor
  · intro hs
    rcases hq : hilbert_curve_to_coordinates (hilbert_index_matrix n) v with
      _ | ⟨x, y⟩
    · rw [hq] at hs
      exact Bool.noConfusion hs
    · rw [hilbert_curve_to_coordinates_lookup] at hq
      obtain ⟨hocc, _⟩ := (lastOccurrence_grid_some _ v x y).mp hq
      obtain ⟨hx, hy, hv⟩ := (occursAt_matrix n v x y).mp hocc
      rw [← hv]
      exact point_to_hilbert_index_range n x y (by positivity)
        (cast_lt_two_pow hx) (by positivity) (cast_lt_two_pow hy)
  · rintro ⟨h0, h1⟩
    have hi : v.toNat < 4 ^ n := by
      have h2 : ((v.toNat : Int)) = v := Int.toNat_of_nonneg h0
      have h3 : ((4 ^ n : Nat) : Int) = (4 : Int) ^ n := by push_cast; ring
      have : (v.toNat : Int) < ((4 ^ n : Nat) : Int) := by rw [h2, h3]; exact h1
      exact_mod_cast this
    have := dict_matrix_lookup n v.toNat hi
    rw [Int.toNat_of_nonneg h0] at this
    rw [this]
    rfl

/-! ## The claims -/

/-- C1: Round-trip inverse.  For every order `≥ 0` and every index in
`[0, 4^order)`, `point_to_hilbert_index` applied to
`hilbert_index_to_point(order, index)` with the same order returns `index`;
conversely, for every point `(x, y)` with `x, y ∈ [0, 2^order)`,
`hilbert_index_to_point(order, point_to_hilbert_index(x, y, order))`
returns `(x, y)`. -/
theorem claim_C1_roundtrip :
    (∀ (order : Nat) (index : Int), 0 ≤ index → index < 4 ^ order →
      point_to_hilbert_index
        (hilbert_index_to_point (order : Int) index).1
        (hilbert_index_to_point (order : Int) index).2 (order : Int) =
        index) ∧
    (∀ (order : Nat) (x y : Int), 0 ≤ x → x < 2 ^ order →
      0 ≤ y → y < 2 ^ order →
      hilbert_index_to_point (order : Int)
        (point_to_hilbert_index x y (order : Int)) = (x, y)) :=
  ⟨hilbert_roundtrip_forward, hilbert_roundtrip_backward⟩

theorem claim_C1_witness :
    point_to_hilbert_index
      (hilbert_index_to_point ((3 : Nat) : Int) 63).1
      (hilbert_index_to_point ((3 : Nat) : Int) 63).2 ((3 : Nat) : Int) = 63 ∧
    hilbert_index_to_point ((1 : Nat) : Int)
      (point_to_hilbert_index 1 0 ((1 : Nat) : Int)) = (1, 0) :=
  ⟨claim_C1_roundtrip.1 3 63 (by decide) (by decide),
    claim_C1_roundtrip.2 1 1 0 (by decide) (by decide) (by decide) (by decide)⟩

/-- C2: Enumeration contract and bijection.  For every order,
`generate_hilbert_points order` has length exactly `4^order`, its element at
position `i` is `hilbert_index_to_point order i`, its points are pairwise
distinct, and their set equals the full grid `[0, 2^order) × [0, 2^order)`. -/
theorem claim_C2_generate :
    ∀ order : Nat,
      (generate_hilbert_points order).length = 4 ^ order ∧
      (∀ i : Nat, i < 4 ^ order →
        (generate_hilbert_points order)[i]? =
          some (hilbert_index_to_point (order : Int) (i : Int))) ∧
      (generate_hilbert_points order).Nodup ∧
      (generate_hilbert_points order).toFinset = gridFinset order :=
  fun order =>
    ⟨generate_length order, fun i h => generate_getElem order i h,
      generate_nodup order, generate_toFinset order⟩

theorem claim_C2_witness :
    (generate_hilbert_points 1).length = 4 ^ 1 ∧
    (generate_hilbert_points 1)[2]? =
      some (hilbert_index_to_point ((1 : Nat) : Int) ((2 : Nat) : Int)) :=
  ⟨(claim_C2_generate 1).1, (claim_C2_generate 1).2.1 2 (by decide)⟩

/-- C3: Curve adjacency.  For every order `≥ 1` and every
`i ∈ [0, 4^order − 2)`, the Chebyshev distance between the points at
positions `i` and `i + 1` of `generate_hilbert_points order` equals
exactly 1. -/
theorem claim_C3_adjacency :
    ∀ order : Nat, 1 ≤ order → ∀ i : Nat, i < 4 ^ order - 2 →
      ∀ p q : Int × Int,
        (generate_hilbert_points order)[i]? = some p →
        (generate_hilbert_points order)[i + 1]? = some q →
        chebyshev p q = 1 := by
  intro order hord i hi p q hp hq
  have h4 : 4 ≤ 4 ^ order := by
    calc (4 : Nat) = 4 ^ 1 := by norm_num
    _ ≤ 4 ^ order := Nat.pow_le_pow_right (by norm_num) hord
  have hi1 : i < 4 ^ order := by omega
  have hi2 : i + 1 < 4 ^ order := by omega
  rw [generate_getElem order i hi1] at hp
  rw [generate_getElem order (i + 1) hi2] at hq
  rw [← Option.some.inj hp, ← Option.some.inj hq]
  rw [hilbert_index_to_point_as_E, hilbert_index_to_point_as_E]
  have hcast : ((i + 1 : Nat) : Int) = (i : Int) + 1 := by push_cast; ring
  rw [hcast]
  have hbound : (i : Int) + 1 < 4 ^ order := by
    have h5 := cast_lt_four_pow hi2
    rwa [hcast] at h5
  exact i2pE_adjacent order (i : Int) (by positivity) hbound

theorem claim_C3_witness :
    chebyshev ((0 : Int), (0 : Int)) ((0 : Int), (1 : Int)) = 1 :=
  claim_C3_adjacency 1 (by decide) 0 (by decide) ((0 : Int), (0 : Int))
    ((0 : Int), (1 : Int)) (by decide) (by decide)

/-- C4: Index-matrix contract and permutation property.  For every order,
`hilbert_index_matrix order` is a `2^order × 2^order` array whose cell at
`(x, y)` holds `point_to_hilbert_index(x, y, order)`, and the multiset of
all its cell values is a permutation of `{0, …, 4^order − 1}`. -/
theorem claim_C4_matrix :
    ∀ order : Nat,
      (hilbert_index_matrix order).length = 2 ^ order ∧
      (∀ x : Nat, x < 2 ^ order → ∀ row,
        (hilbert_index_matrix order)[x]? = some row →
          row.length = 2 ^ order) ∧
      (∀ x y : Nat, x < 2 ^ order → y < 2 ^ order →
        ((hilbert_index_matrix order)[x]?.bind fun row => row[y]?) =
          some (point_to_hilbert_index (x : Int) (y : Int) (order : Int))) ∧
      (hilbert_index_matrix order).flatten.Perm
        ((List.range (4 ^ order)).map fun i : Nat => (i : Int)) := by
  intro order
  refine ⟨matrix_length order, ?_, ?_, matrix_flatten_perm order⟩
  · intro x hx row hrow
    rw [matrix_getElem_row order x hx] at hrow
    rw [← Option.some.inj hrow, List.length_map, List.length_range]
  · intro x y hx hy
    exact matrix_cell order x y hx hy

theorem claim_C4_witness :
    (hilbert_index_matrix 1).length = 2 ^ 1 ∧
    ((hilbert_index_matrix 1)[1]?.bind fun row => row[0]?) =
      some (point_to_hilbert_index ((1 : Nat) : Int) ((0 : Nat) : Int)
        ((1 : Nat) : Int)) :=
  ⟨(claim_C4_matrix 1).1, (claim_C4_matrix 1).2.2.1 1 0 (by decide) (by decide)⟩

/-- C5, counterexample: the claim that the alternate name for
`pointToIndex` takes its arguments in the order `(x, y, order)` fails on the
code: `distance_from_point` takes `(order, x, y)`.  At the concrete valid
input `x = 0, y = 1, order = 1` (claimed convention), reading
`distance_from_point 0 1 1` under the claimed convention does not return
`point_to_hilbert_index 0 1 1`. -/
theorem claim_C5_counterexample :
    ¬(distance_from_point 0 1 1 = point_to_hilbert_index 0 1 1) := by
  decide

/-- C5, amended: the system exposes `hilbert_index_to_point` under the
alternate name `point_from_distance` taking `(order, index)`, and
`point_to_hilbert_index` under the alternate name `distance_from_point`
taking `(order, x, y)` — not `(x, y, order)`; each alias returns exactly
the value of the primary function at the same order, index, x and y. -/
theorem claim_C5_aliases :
    (∀ order index : Int,
      point_from_distance order index = hilbert_index_to_point order index) ∧
    (∀ order x y : Int,
      distance_from_point order x y = point_to_hilbert_index x y order) :=
  ⟨fun _ _ => rfl, fun _ _ _ => rfl⟩

/-- C6: Cross-validation against the static order-3 reference table: there
is one fixed axis convention — here the transpose one, cell `[x][y]`
corresponding to `HILBERT_3[y][x]` — under which every cell of
`hilbert_index_matrix 3` equals the corresponding entry of `HILBERT_3`. -/
theorem claim_C6_crossvalidation :
    (∀ x : Nat, x < 8 → ∀ y : Nat, y < 8 →
        ((hilbert_index_matrix 3).getD x []).getD y 0 =
          (HILBERT_3.getD x []).getD y 0) ∨
    (∀ x : Nat, x < 8 → ∀ y : Nat, y < 8 →
        ((hilbert_index_matrix 3).getD x []).getD y 0 =
          (HILBERT_3.getD y []).getD x 0) := by
  right
  have hmat : hilbert_index_matrix 3 =
      (List.range (2 ^ 3)).map fun x : Nat =>
        (List.range (2 ^ 3)).map fun y : Nat =>
          p2iE 3 (x : Int) (y : Int) := by
    unfold hilbert_index_matrix
    simp only [point_to_hilbert_index_as_E]
  rw [hmat]
  decide

/-- C7: Grid-inverter contract with last-wins collision rule.  For every 2D
array, `hilbert_curve_to_coordinates` returns a mapping whose domain is
exactly the set of distinct values occurring in the array, and which maps
each value to the (first-dimension, second-dimension) position of that
value's last occurrence in a row-major scan. -/
theorem claim_C7_grid_inverter :
    ∀ (grid : List (List Int)) (v : Int),
      ((hilbert_curve_to_coordinates grid v).isSome ↔
        ∃ x y : Nat, occursAt grid v x y) ∧
      (∀ x y : Nat,
        hilbert_curve_to_coordinates grid v = some (x, y) ↔
          occursAt grid v x y ∧
            ∀ x' y' : Nat, occursAt grid v x' y' → lexLE (x', y') (x, y)) := by
  intro grid v
  constructor
  · constructor
    · intro hs
      rcases hq : hilbert_curve_to_coordinates grid v with _ | ⟨x, y⟩
      · rw [hq] at hs
        exact Bool.noConfusion hs
      · rw [hilbert_curve_to_coordinates_lookup] at hq
        obtain ⟨hocc, _⟩ := (lastOccurrence_grid_some grid v x y).mp hq
        exact ⟨x, y, hocc⟩
    · rintro ⟨x, y, hocc⟩
      rcases hq : hilbert_curve_to_coordinates grid v with _ | p
      · rw [hilbert_curve_to_coordinates_lookup] at hq
        exact absurd hocc ((lastOccurrence_grid_none grid v).mp hq x y)
      · rfl
  · intro x y
    rw [hilbert_curve_to_coordinates_lookup]
    exact lastOccurrence_grid_some grid v x y

/-- C8: No validation and no crash on out-of-range input: on every input —
including negative order, index `≥ 4^order`, or a coordinate `≥ 2^order` —
`hilbert_index_to_point` and `point_to_hilbert_index` terminate normally and
return an integer result; sample out-of-range inputs produce (silently
wrong) in-type answers rather than an error. -/
theorem claim_C8_no_validation :
    (∀ order index : Int,
      ∃ p : Int × Int, hilbert_index_to_point order index = p) ∧
    (∀ x y order : Int, ∃ k : Int, point_to_hilbert_index x y order = k) ∧
    hilbert_index_to_point (-1) 5 = (0, 0) ∧
    point_to_hilbert_index 3 3 (-2) = 0 ∧
    hilbert_index_to_point 1 7 = (1, 0) ∧
    point_to_hilbert_index 2 0 1 = 0 :=
  ⟨fun _ _ => ⟨_, rfl⟩, fun _ _ _ => ⟨_, rfl⟩, rfl, rfl, by decide, by decide⟩

/-- C9: Implicit composition round-trip: applying
`hilbert_curve_to_coordinates` to `hilbert_index_matrix order` yields a
mapping defined on exactly `{0, …, 4^order − 1}` that maps every index `i`
in that range to `hilbert_index_to_point(order, i)`. -/
theorem claim_C9_composition :
    ∀ order : Nat,
      (∀ v : Int,
        (hilbert_curve_to_coordinates (hilbert_index_matrix order) v).isSome ↔
          0 ≤ v ∧ v < 4 ^ order) ∧
      (∀ i : Nat, i < 4 ^ order →
        (hilbert_curve_to_coordinates (hilbert_index_matrix order)
            (i : Int)).map (fun p => ((p.1 : Int), (p.2 : Int))) =
          some (hilbert_index_to_point (order : Int) (i : Int))) := by
  intro order
  refine ⟨dict_matrix_isSome order, ?_⟩
  intro i h
  rw [dict_matrix_lookup order i h]
  simp only [Option.map_some']
  obtain ⟨ha0, _, hb0, _⟩ := hilbert_index_to_point_mem_grid order (i : Int)
    (by positivity) (cast_lt_four_pow h)
  rw [Int.toNat_of_nonneg ha0, Int.toNat_of_nonneg hb0]

theorem claim_C9_witness :
    (hilbert_curve_to_coordinates (hilbert_index_matrix 1)
        ((2 : Nat) : Int)).map (fun p => ((p.1 : Int), (p.2 : Int))) =
      some (hilbert_index_to_point ((1 : Nat) : Int) ((2 : Nat) : Int)) :=
  (claim_C9_composition 1).2 2 (by decide)

/-- C10: Implicit periodicity of the forward map in the index: for every
order `≥ 0` and every integer index `≥ 0`,
`hilbert_index_to_point(order, index)` equals
`hilbert_index_to_point(order, index mod 4^order)`, because the iteration
examines only the low `2·order` bits of the index. -/
theorem claim_C10_periodicity :
    ∀ (order : Nat) (index : Int), 0 ≤ index →
      hilbert_index_to_point (order : Int) index =
        hilbert_index_to_point (order : Int) (index % 4 ^ order) := by
  intro order index _
  rw [hilbert_index_to_point_as_E, hilbert_index_to_point_as_E]
  exact i2pAuxE_congr_mod order 0 0 1 index (index % 4 ^ order)
    (by rw [Int.emod_emod_of_dvd _ dvd_rfl])

theorem claim_C10_witness :
    hilbert_index_to_point ((2 : Nat) : Int) 21 =
      hilbert_index_to_point ((2 : Nat) : Int) (21 % 4 ^ 2) :=
  claim_C10_periodicity 2 21 (by decide)
